import Mathlib

/-!
Verification development for the ENS name normalization library
(ENSIP-15 normalizer: tokenizer, label splitter, validator, emitter).

Strings are modelled as lists of Unicode code points (`CodePoint := Nat`);
`cps2str` from `utils.rs` drops values that are not Unicode scalar values
(surrogates and values above 0x10FFFF), which is modelled by `cpsToStr`.

The static tables (`spec.json` / `nf.json`) are consumed by the library as
opaque inputs, so the embedding is parametric in a `CodePointsSpecs`
structure mirroring the fields of `code_points/specs.rs` after
construction; `computeValid` mirrors the constructor's derivation of the
`valid` set.  The Unicode NFC function comes from the external
`unicode_normalization` crate and is therefore a function-valued field.

Rust `HashSet`/`HashMap` iteration order is unspecified; wherever the
source iterates such a container into an ordered result (candidate lists
in `check_whole`, the emoji map), the model fixes the order to the order
of the underlying list.  Functions that can panic in Rust (`expect`) are
modelled with `Option`, `none` standing for the panic.
-/

namespace EnsNorm

abbrev CodePoint := Nat

/-- `constants.rs` -/
def cpStop : CodePoint := 0x2E
def cpFe0f : CodePoint := 0xFE0F
def cpXiSmall : CodePoint := 0x3BE
def cpXiCapital : CodePoint := 0x39E
def cpUnderscore : CodePoint := 0x5F
def cpHyphen : CodePoint := 0x2D

def lastAsciiCp : CodePoint := 0x7F

/-- `utils::is_ascii` -/
def isAscii (cp : CodePoint) : Bool := cp ≤ lastAsciiCp

/-- A Unicode scalar value: `char::from_u32` succeeds exactly on these. -/
def isScalarCp (cp : CodePoint) : Bool :=
  (cp < 0xD800 || (0xDFFF < cp && cp < 0x110000))

/-- `utils::cps2str` followed by `utils::str2cps`: building a Rust `String`
from code points drops non-scalar values. Strings are modelled as the
resulting lists of scalar code points. -/
def cpsToStr (cps : List CodePoint) : List CodePoint := cps.filter isScalarCp

/-- `utils::filter_fe0f` -/
def filterFe0f (cps : List CodePoint) : List CodePoint :=
  cps.filter (fun cp => cp ≠ cpFe0f)

/-- UTF-8 encoded length of one scalar value, used by the emoji regex
ordering (`order` in `create_emoji_regex_pattern` sorts by byte length). -/
def utf8Len (cp : CodePoint) : Nat :=
  if cp < 0x80 then 1 else if cp < 0x800 then 2 else if cp < 0x10000 then 3 else 4

def utf8LenCps (cps : List CodePoint) : Nat := (cps.map utf8Len).sum

/-- `static_data/spec_json.rs`: `GroupName` -/
inductive GroupName where
  | emoji
  | ascii
  | greek
  | other (s : String)
deriving DecidableEq, Repr

/-- `GroupName::from::<String>` (serde names: `Emoji`, `ASCII`, `Greek`). -/
def strToGroupName (s : String) : GroupName :=
  if s = "Emoji" then .emoji
  else if s = "ASCII" then .ascii
  else if s = "Greek" then .greek
  else .other s

/-- `GroupName` display form (serde serialization). -/
def groupNameStr : GroupName → String
  | .emoji => "Emoji"
  | .ascii => "ASCII"
  | .greek => "Greek"
  | .other s => s

/-- `GroupName::is_greek` -/
def GroupName.isGreek : GroupName → Bool
  | .greek => true
  | _ => false

/-- `code_points/types.rs`: `ParsedGroup` (after `From<spec_json::Group>`;
`cmAbsent` is `g.cm.is_empty()`). -/
structure ParsedGroup where
  name : GroupName
  primary : List CodePoint
  secondary : List CodePoint
  cmAbsent : Bool
deriving DecidableEq, Repr

/-- `ParsedGroup::primary_plus_secondary` membership / `contains_cp`. -/
def ParsedGroup.containsCp (g : ParsedGroup) (cp : CodePoint) : Bool :=
  (g.primary ++ g.secondary).contains cp

/-- `ParsedGroup::contains_all_cps` -/
def ParsedGroup.containsAllCps (g : ParsedGroup) (cps : List CodePoint) : Bool :=
  cps.all (fun cp => g.containsCp cp)

/-- `code_points/types.rs`: `ParsedWholeValue`; the `M` map of a
`WholeObject` is an association list code point → group-name list. -/
inductive ParsedWholeValue where
  | number (n : Nat)
  | wholeObject (v : List CodePoint) (m : List (CodePoint × List String))
deriving DecidableEq, Repr

/-- First-match association-list lookup (models `HashMap::get`). -/
def assocLookup {α : Type} (l : List (CodePoint × α)) (cp : CodePoint) : Option α :=
  (l.find? (fun p => p.1 = cp)).map (·.2)

/-- `code_points/specs.rs`: the constructed `CodePointsSpecs`.
`nfc` is the external `unicode_normalization` NFC function. -/
structure CodePointsSpecs where
  cm : List CodePoint
  ignored : List CodePoint
  mapped : List (CodePoint × List CodePoint)
  nfcCheck : List CodePoint
  wholeMap : List (CodePoint × ParsedWholeValue)
  fenced : List CodePoint
  groups : List ParsedGroup
  valid : List CodePoint
  nsm : List CodePoint
  nsmMax : Nat
  emojis : List (List CodePoint)
  decomp : List (CodePoint × List CodePoint)
  nfc : List CodePoint → List CodePoint

namespace CodePointsSpecs

/-- `compute_valid`: union of all groups' primary ∪ secondary, extended by
the decompositions of its members. -/
def computeValid (groups : List ParsedGroup)
    (decomp : List (CodePoint × List CodePoint)) : List CodePoint :=
  let base := (groups.map (fun g => g.primary ++ g.secondary)).flatten
  base ++ (base.map (fun cp => (assocLookup decomp cp).getD [])).flatten

def isValid (s : CodePointsSpecs) (cp : CodePoint) : Bool := s.valid.contains cp

def isIgnored (s : CodePointsSpecs) (cp : CodePoint) : Bool := s.ignored.contains cp

/-- `is_stop`: fixed to `CP_STOP`. -/
def isStop (_s : CodePointsSpecs) (cp : CodePoint) : Bool := cp = cpStop

def isFenced (s : CodePointsSpecs) (cp : CodePoint) : Bool := s.fenced.contains cp

def isCm (s : CodePointsSpecs) (cp : CodePoint) : Bool := s.cm.contains cp

def isNsm (s : CodePointsSpecs) (cp : CodePoint) : Bool := s.nsm.contains cp

def maybeNormalize (s : CodePointsSpecs) (cp : CodePoint) : Option (List CodePoint) :=
  assocLookup s.mapped cp

def cpsRequiresCheck (s : CodePointsSpecs) (cps : List CodePoint) : Bool :=
  cps.any (fun cp => s.nfcCheck.contains cp)

def decompose (s : CodePointsSpecs) (cp : CodePoint) : Option (List CodePoint) :=
  assocLookup s.decomp cp

def wholeMapLookup (s : CodePointsSpecs) (cp : CodePoint) : Option ParsedWholeValue :=
  assocLookup s.wholeMap cp

/-- `group_by_name` (the name-to-index `HashMap` is modelled by a first
match scan of the group list). -/
def groupByName (s : CodePointsSpecs) (name : String) : Option ParsedGroup :=
  s.groups.find? (fun g => g.name = strToGroupName name)

/-- `groups_for_cps` -/
def groupsForCps (s : CodePointsSpecs) (cps : List CodePoint) : List ParsedGroup :=
  s.groups.filter (fun g => cps.all (fun cp => g.containsCp cp))

/-- `emoji_no_fe0f_to_pretty` (first list entry whose FE0F-stripped form
matches; the source builds a `HashMap` from a `HashSet`, whose iteration
order is unspecified). -/
def emojiNoFe0fToPretty (s : CodePointsSpecs) (key : List CodePoint) :
    Option (List CodePoint) :=
  s.emojis.find? (fun e => filterFe0f e = key)

end CodePointsSpecs

/-- `tokens/types.rs`: `EnsNameToken`.  The `input: String` field of
`TokenEmoji` is redundant with `cps_input` (`cps_input = str2cps(input)`)
and is omitted; cursor advancement uses the code-point count. -/
inductive EnsNameToken where
  | valid (cps : List CodePoint)
  | mapped (cp : CodePoint) (cps : List CodePoint)
  | ignored (cp : CodePoint)
  | disallowed (cp : CodePoint)
  | stop (cp : CodePoint)
  | nfc (input : List CodePoint) (cps : List CodePoint)
  | emoji (cpsInput : List CodePoint) (emoji : List CodePoint)
      (cpsNoFe0f : List CodePoint)
deriving DecidableEq, Repr

namespace EnsNameToken

/-- `EnsNameToken::cps` -/
def cpsOf : EnsNameToken → List CodePoint
  | valid cps => cps
  | mapped _ cps => cps
  | nfc _ cps => cps
  | emoji _ _ cpsNoFe0f => cpsNoFe0f
  | disallowed cp => [cp]
  | stop cp => [cp]
  | ignored cp => [cp]

/-- `EnsNameToken::input_size` -/
def inputSize : EnsNameToken → Nat
  | valid cps => cps.length
  | nfc input _ => input.length
  | emoji cpsInput _ _ => cpsInput.length
  | mapped _ _ => 1
  | disallowed _ => 1
  | ignored _ => 1
  | stop _ => 1

def isText : EnsNameToken → Bool
  | valid _ => true
  | mapped _ _ => true
  | nfc _ _ => true
  | _ => false

def isEmojiTok : EnsNameToken → Bool
  | emoji _ _ _ => true
  | _ => false

def isIgnoredTok : EnsNameToken → Bool
  | ignored _ => true
  | _ => false

def isDisallowedTok : EnsNameToken → Bool
  | disallowed _ => true
  | _ => false

def isStopTok : EnsNameToken → Bool
  | stop _ => true
  | _ => false

def isValidTok : EnsNameToken → Bool
  | valid _ => true
  | _ => false

def isMappedTok : EnsNameToken → Bool
  | mapped _ _ => true
  | _ => false

def isNfcTok : EnsNameToken → Bool
  | nfc _ _ => true
  | _ => false

end EnsNameToken

/-- `tokens/types.rs`: `CollapsedEnsNameToken` -/
inductive CollapsedEnsNameToken where
  | text (cps : List CodePoint)
  | emoji (cpsInput : List CodePoint) (emoji : List CodePoint)
      (cpsNoFe0f : List CodePoint)
deriving DecidableEq, Repr

/-- `CollapsedEnsNameToken::input_size` -/
def CollapsedEnsNameToken.inputSize : CollapsedEnsNameToken → Nat
  | .text cps => cps.length
  | .emoji cpsInput _ _ => cpsInput.length

/-- `tokens/tokenize.rs`: `TokenizedName` -/
structure TokenizedName where
  input : List CodePoint
  tokens : List EnsNameToken
deriving DecidableEq, Repr

def TokenizedName.empty : TokenizedName := ⟨[], []⟩

def TokenizedName.isEmpty (n : TokenizedName) : Bool := n.tokens.isEmpty

/-! ### Emoji matching

`create_emoji_regex_pattern` builds one alternation of all pretty emoji
sequences, each `FE0F` made optional (`fe0f?`, greedy), alternatives
sorted by byte length of the `FE0F`-stripped string, longest first
(stably).  The `regex` crate uses leftmost-first semantics, so at a given
position the first alternative in that order that matches wins.
`maybe_starts_with_emoji` consumes a match starting exactly at the
cursor. -/

/-- Match one FE0F-optional pattern against the start of the input,
returning the consumed prefix (greedy on `FE0F`, with backtracking). -/
def matchEmojiPattern : List CodePoint → List CodePoint → Option (List CodePoint)
  | [], _ => some []
  | p :: ps, input =>
    if p = cpFe0f then
      match input with
      | c :: cs =>
        if c = cpFe0f then
          match matchEmojiPattern ps cs with
          | some rest => some (cpFe0f :: rest)
          | none => matchEmojiPattern ps (c :: cs)
        else matchEmojiPattern ps (c :: cs)
      | [] => matchEmojiPattern ps []
    else
      match input with
      | c :: cs => if c = p then (matchEmojiPattern ps cs).map (p :: ·) else none
      | [] => none

/-- Stable insertion (descending by key): models `sort_by_key(Reverse(k))`. -/
def insertByKeyDesc (key : List CodePoint → Nat) (x : List CodePoint) :
    List (List CodePoint) → List (List CodePoint)
  | [] => [x]
  | y :: ys =>
    if key y ≤ key x then x :: y :: ys else y :: insertByKeyDesc key x ys

def sortByKeyDesc (key : List CodePoint → Nat) (l : List (List CodePoint)) :
    List (List CodePoint) :=
  l.foldr (insertByKeyDesc key) []

/-- The emoji alternatives in regex order: sorted by byte length of the
FE0F-stripped form, descending. -/
def sortedEmojis (s : CodePointsSpecs) : List (List CodePoint) :=
  sortByKeyDesc (fun e => utf8LenCps (filterFe0f e)) s.emojis

/-- `maybe_starts_with_emoji`: the consumed input, the pretty form (from
`cps_emoji_no_fe0f_to_pretty`, whose `expect` is modelled by `getD []`)
and the FE0F-free form. -/
def maybeStartsWithEmoji (s : CodePointsSpecs) (input : List CodePoint) :
    Option (List CodePoint × List CodePoint × List CodePoint) :=
  (sortedEmojis s).findSome? fun pat =>
    (matchEmojiPattern pat input).map fun consumed =>
      let noFe0f := filterFe0f consumed
      (consumed, (s.emojiNoFe0fToPretty noFe0f).getD [], noFe0f)

/-! ### Tokenizer (`tokens/tokenize.rs`) -/

/-- `process_one_cp` -/
def processOneCp (s : CodePointsSpecs) (cp : CodePoint) : EnsNameToken :=
  if s.isStop cp then .stop cp
  else if s.isValid cp then .valid [cp]
  else if s.isIgnored cp then .ignored cp
  else
    match s.maybeNormalize cp with
    | some normalized => .mapped cp normalized
    | none => .disallowed cp

/-- The `while input_cur < input.len()` walk of `tokenize_input`.  The
fuel is sufficient whenever every emoji match consumes at least one code
point (true whenever every pattern has a non-`FE0F` code point; with a
pattern of only `FE0F`s the Rust loop would not terminate). -/
def tokenizeLoop (s : CodePointsSpecs) : Nat → List CodePoint → List EnsNameToken
  | 0, _ => []
  | _, [] => []
  | fuel + 1, c :: cs =>
    match maybeStartsWithEmoji s (c :: cs) with
    | some (consumed, pretty, noFe0f) =>
        .emoji consumed pretty noFe0f ::
          tokenizeLoop s fuel (List.drop consumed.length (c :: cs))
    | none => processOneCp s c :: tokenizeLoop s fuel cs

/-- The inner `for (pos, token) in tokens.iter().enumerate().skip(end)`
scan of `perform_nfc_transform` extending `end`.  Note that the `break`
condition re-tests the *outer* token's `cps` (which already required the
check), exactly as in the source.  The fuel bounds the remaining
positions; `tokens.length + 1` always suffices. -/
def nfcScanEnd (s : CodePointsSpecs) (outerCps : List CodePoint)
    (tokens : List EnsNameToken) : Nat → Nat → Nat → Nat
  | 0, _, e => e
  | fuel + 1, pos, e =>
    match tokens[pos]? with
    | some (.valid _) | some (.mapped _ _) =>
        if ¬ s.cpsRequiresCheck outerCps then e
        else nfcScanEnd s outerCps tokens fuel (pos + 1) (pos + 1)
    | some (.ignored _) => nfcScanEnd s outerCps tokens fuel (pos + 1) e
    | some _ => e
    | none => e

/-- The text code points of a run slice (`Valid`/`Mapped` only). -/
def runTextCps (slice : List EnsNameToken) : List CodePoint :=
  (slice.filterMap fun tok =>
    match tok with
    | .valid c => some c
    | .mapped _ c => some c
    | _ => none).flatten

/-- The `while i < tokens.len()` loop of `perform_nfc_transform`; `start`
is the `-1`-sentinelled index (`none` = `-1`). -/
def performNfcLoop (s : CodePointsSpecs) :
    Nat → List EnsNameToken → Nat → Option Nat → List EnsNameToken
  | 0, tokens, _, _ => tokens
  | fuel + 1, tokens, i, start =>
    if h : i < tokens.length then
      let t := tokens[i]
      match t with
      | .valid _ | .mapped _ _ =>
        let cps := t.cpsOf
        if s.cpsRequiresCheck cps then
          let e := nfcScanEnd s cps tokens (tokens.length + 1) (i + 1) (i + 1)
          let st := start.getD i
          let slice := (tokens.drop st).take (e - st)
          let runCps := runTextCps slice
          let str0 := cpsToStr runCps
          let str1 := s.nfc str0
          if str0 = str1 then
            performNfcLoop s fuel tokens e none
          else
            let newTokens := tokens.take st ++ [.nfc runCps str1] ++ tokens.drop e
            performNfcLoop s fuel newTokens (st + 1) none
        else
          performNfcLoop s fuel tokens (i + 1) (some i)
      | .ignored _ => performNfcLoop s fuel tokens (i + 1) start
      | _ => performNfcLoop s fuel tokens (i + 1) none
    else tokens

/-- `perform_nfc_transform` (the fuel bounds the loop's iteration count). -/
def performNfcTransform (s : CodePointsSpecs) (tokens : List EnsNameToken) :
    List EnsNameToken :=
  performNfcLoop s ((tokens.length + 1) * (tokens.length + 1)) tokens 0 none

/-- `collapse_valid_tokens`: coalesce maximal runs of adjacent `Valid`
tokens, concatenating their code points (the source's left-to-right
splice loop produces one `Valid` per maximal run with the concatenated
code points; the right fold below produces the same list). -/
def collapseValidTokens : List EnsNameToken → List EnsNameToken
  | [] => []
  | .valid cps :: rest =>
    match collapseValidTokens rest with
    | .valid cps2 :: out => .valid (cps ++ cps2) :: out
    | out => .valid cps :: out
  | t :: rest => t :: collapseValidTokens rest

/-- `tokenize_input` -/
def tokenizeInput (s : CodePointsSpecs) (input : List CodePoint)
    (applyNfc : Bool) : List EnsNameToken :=
  let tokens := tokenizeLoop s (input.length + 1) input
  let tokens := if applyNfc then performNfcTransform s tokens else tokens
  collapseValidTokens tokens

/-- `tokenize_name` (also `TokenizedName::from_input`). -/
def tokenizeName (s : CodePointsSpecs) (input : List CodePoint)
    (applyNfc : Bool) : TokenizedName :=
  match input with
  | [] => TokenizedName.empty
  | _ => ⟨input, tokenizeInput s input applyNfc⟩

/-! ### Labels (`TokenizedName::iter_labels`, `TokenizedLabel`) -/

/-- `slice::split` at `Stop` tokens: separators removed, empty slices
(from adjacent, leading or trailing stops) kept; the empty token list
yields one empty label. -/
def splitTokensOnStop : List EnsNameToken → List (List EnsNameToken)
  | [] => [[]]
  | t :: rest =>
    if t.isStopTok then [] :: splitTokensOnStop rest
    else
      match splitTokensOnStop rest with
      | seg :: segs => (t :: seg) :: segs
      | [] => [[t]]

def TokenizedName.iterLabels (n : TokenizedName) : List (List EnsNameToken) :=
  splitTokensOnStop n.tokens

/-- `TokenizedLabel::iter_cps` -/
def labelCps (label : List EnsNameToken) : List CodePoint :=
  (label.map EnsNameToken.cpsOf).flatten

/-- `TokenizedLabel::is_fully_emoji` -/
def isFullyEmoji (label : List EnsNameToken) : Bool :=
  label.all EnsNameToken.isEmojiTok

/-- `TokenizedLabel::is_fully_ascii` -/
def isFullyAscii (label : List EnsNameToken) : Bool :=
  label.all (fun t => t.cpsOf.all isAscii)

/-- `TokenizedLabel::collapse_into_text_or_emoji` (accumulator =
`current_text_cps`). -/
def collapseTextOrEmojiAux (acc : List CodePoint) :
    List EnsNameToken → List CollapsedEnsNameToken
  | [] => if acc.isEmpty then [] else [.text acc]
  | t :: rest =>
    match t with
    | .valid _ | .mapped _ _ | .nfc _ _ =>
        collapseTextOrEmojiAux (acc ++ t.cpsOf) rest
    | .emoji ci em nf =>
        (if acc.isEmpty then [] else [.text acc]) ++
          (.emoji ci em nf :: collapseTextOrEmojiAux [] rest)
    | .ignored _ | .disallowed _ | .stop _ => collapseTextOrEmojiAux acc rest

def collapseIntoTextOrEmoji (label : List EnsNameToken) :
    List CollapsedEnsNameToken :=
  collapseTextOrEmojiAux [] label

/-- `TokenizedLabel::get_cps_of_not_ignored_text` -/
def getCpsOfNotIgnoredText (label : List EnsNameToken) : List CodePoint :=
  ((collapseIntoTextOrEmoji label).filterMap fun tok =>
    match tok with
    | .text cps => some cps
    | _ => none).flatten

/-! ### Errors (`error.rs`).

`validate.rs` constructs `ProcessError::Confused(String)` and
`ProcessError::ConfusedGroups{..}` directly, so they are modelled as
`ProcessError` constructors.  `DisallowedSequence::InvisibleCharacter` is
declared in `error.rs` (and asserted by `examples/simple.rs`) but never
constructed anywhere in the library.  `sequence`/`maybe_suggest` strings
are modelled as scalar code-point lists. -/

inductive CurrableError where
  | underscoreInMiddle
  | hyphenAtSecondAndThird
  | cmStart
  | cmAfterEmoji
  | fencedLeading
  | fencedTrailing
  | fencedConsecutive
deriving DecidableEq, Repr

inductive DisallowedSequence where
  | invalid (s : List CodePoint)
  | invisibleCharacter (cp : CodePoint)
  | emptyLabel
  | nsmTooMany
  | nsmRepeated
deriving DecidableEq, Repr

inductive ProcessError where
  | currableError (inner : CurrableError) (index : Nat)
      (sequence : List CodePoint) (maybeSuggest : Option (List CodePoint))
  | disallowedSequence (d : DisallowedSequence)
  | confused (msg : String)
  | confusedGroups (group1 group2 : String)
deriving DecidableEq, Repr

/-- `validate.rs`: `ValidatedLabel` (`LabelType = GroupName`). -/
structure ValidatedLabel where
  tokens : List EnsNameToken
  labelType : GroupName
deriving DecidableEq, Repr

/-! ### Validator (`validate.rs`) -/

/-- `non_empty` -/
def nonEmpty (label : List EnsNameToken) : Except ProcessError Unit :=
  if label.any (fun t => ¬ t.isIgnoredTok) then .ok ()
  else .error (.disallowedSequence .emptyLabel)

/-- `check_token_types` -/
def checkTokenTypes (label : List EnsNameToken) : Except ProcessError Unit :=
  match label.find? (fun t => t.isDisallowedTok || t.isStopTok) with
  | some t => .error (.disallowedSequence (.invalid (cpsToStr t.cpsOf)))
  | none => .ok ()

/-- `underscore_only_at_beginning` -/
def underscoreOnlyAtBeginning (label : List EnsNameToken) :
    Except ProcessError Unit :=
  let cps := labelCps label
  let leading := (cps.takeWhile (fun cp => cp = cpUnderscore)).length
  match (cps.enum.drop leading).find? (fun p => p.2 = cpUnderscore) with
  | some (index, _) =>
      .error (.currableError .underscoreInMiddle index
        (cpsToStr [cpUnderscore]) (some []))
  | none => .ok ()

/-- `no_hyphen_at_second_and_third` -/
def noHyphenAtSecondAndThird (label : List EnsNameToken) :
    Except ProcessError Unit :=
  let cps := labelCps label
  if cps[2]? = some cpHyphen && cps[3]? = some cpHyphen then
    .error (.currableError .hyphenAtSecondAndThird 2
      (cpsToStr [cpHyphen, cpHyphen]) (some []))
  else .ok ()

/-- The `tuple_windows().enumerate()` scan of `check_fenced`. -/
def fencedWindowScan (s : CodePointsSpecs) :
    Nat → List CodePoint → Except ProcessError Unit
  | _, [] => .ok ()
  | _, [_] => .ok ()
  | i, a :: b :: rest =>
    if s.isFenced a && s.isFenced b then
      .error (.currableError .fencedConsecutive i
        (cpsToStr [a, b]) (some (cpsToStr [a])))
    else fencedWindowScan s (i + 1) (b :: rest)

/-- `check_fenced` -/
def checkFenced (s : CodePointsSpecs) (label : List EnsNameToken) :
    Except ProcessError Unit :=
  let cps := labelCps label
  match cps.head? with
  | some first =>
    if s.isFenced first then
      .error (.currableError .fencedLeading 0 (cpsToStr [first]) (some []))
    else
      match cps.getLast? with
      | some last =>
        if s.isFenced last then
          .error (.currableError .fencedTrailing (cps.length - 1)
            (cpsToStr [last]) (some []))
        else fencedWindowScan s 0 cps
      | none => fencedWindowScan s 0 cps
  | none =>
    match cps.getLast? with
    | some last =>
      if s.isFenced last then
        .error (.currableError .fencedTrailing (cps.length - 1)
          (cpsToStr [last]) (some []))
      else fencedWindowScan s 0 cps
    | none => fencedWindowScan s 0 cps

/-- The indexed walk of `check_cm_leading_emoji` (`i` = position in the
collapsed list, `idx` = accumulated `input_size`). -/
def cmScan (s : CodePointsSpecs) :
    Nat → Nat → List CollapsedEnsNameToken → Except ProcessError Unit
  | _, _, [] => .ok ()
  | i, idx, tok :: rest =>
    match tok with
    | .text cps =>
      match cps.head? with
      | some cp =>
        if s.isCm cp then
          if i = 0 then
            .error (.currableError .cmStart idx (cpsToStr [cp]) (some []))
          else
            .error (.currableError .cmAfterEmoji idx (cpsToStr [cp]) (some []))
        else cmScan s (i + 1) (idx + tok.inputSize) rest
      | none => cmScan s (i + 1) (idx + tok.inputSize) rest
    | .emoji _ _ _ => cmScan s (i + 1) (idx + tok.inputSize) rest

/-- `check_cm_leading_emoji` -/
def checkCmLeadingEmoji (s : CodePointsSpecs) (label : List EnsNameToken) :
    Except ProcessError Unit :=
  cmScan s 0 0 (collapseIntoTextOrEmoji label)

/-- The `HashSet` collection of `unique_cps` (iteration order is
unspecified in Rust; the model keeps first occurrences in input order). -/
def uniqueCps (cps : List CodePoint) : List CodePoint :=
  cps.foldl (fun acc cp => if acc.contains cp then acc else acc ++ [cp]) []

/-- `utils::nfd_cps` -/
def nfdCps (s : CodePointsSpecs) (cps : List CodePoint) : List CodePoint :=
  (cps.map (fun cp => (s.decompose cp).getD [cp])).flatten

/-- `determine_group`: the first group containing every unique code point
(the `Confused` message's `{:?}` formatting of the list is elided). -/
def determineGroup (s : CodePointsSpecs) (unique : List CodePoint) :
    Except ProcessError ParsedGroup :=
  match (s.groupsForCps unique).head? with
  | some g => .ok g
  | none => .error (.confused "no group found")

/-- Inner `while j < e && specs.is_nsm(decomposed[j])` loop of the NSM
check in `check_group`; returns the final `j`.  The fuel bounds the
remaining positions; `d.length + 1` always suffices. -/
def nsmInnerLoop (s : CodePointsSpecs) (d : List CodePoint) (i : Nat) :
    Nat → Nat → Except DisallowedSequence Nat
  | 0, j => .ok j
  | fuel + 1, j =>
    match d[j]? with
    | some cp =>
      if s.isNsm cp then
        if j - i + 1 > s.nsmMax then .error .nsmTooMany
        else if ((d.drop i).take (j - i)).contains cp then .error .nsmRepeated
        else nsmInnerLoop s d i fuel (j + 1)
      else .ok j
    | none => .ok j

/-- Outer `while i < e` loop of the NSM check (starts at `i = 1`); the
fuel bounds the iteration count (`i` strictly increases each round, so
`d.length + 1` rounds always suffice). -/
def nsmOuterLoop (s : CodePointsSpecs) (d : List CodePoint) :
    Nat → Nat → Except DisallowedSequence Unit
  | 0, _ => .ok ()
  | fuel + 1, i =>
    match d[i]? with
    | some cp =>
      if s.isNsm cp then
        match nsmInnerLoop s d i (d.length + 1) (i + 1) with
        | .error e => .error e
        | .ok j => nsmOuterLoop s d fuel (j + 1)
      else nsmOuterLoop s d fuel (i + 1)
    | none => .ok ()

/-- `check_group`: membership of every text code point, then the NSM
rules when the group's `cm` list is empty.  (The `Confused` message keeps
the offending code point and group name without `cp2str` formatting.) -/
def checkGroup (s : CodePointsSpecs) (group : ParsedGroup)
    (cps : List CodePoint) : Except ProcessError Unit :=
  match cps.find? (fun cp => ¬ group.containsCp cp) with
  | some cp =>
      .error (.confused ("symbol " ++ toString cp ++ " not present in group "
        ++ groupNameStr group.name))
  | none =>
    if group.cmAbsent then
      let d := nfdCps s cps
      match nsmOuterLoop s d (d.length + 1) 1 with
      | .error e => .error (.disallowedSequence e)
      | .ok () => .ok ()
    else .ok ()

/-- `get_groups_candidates_and_shared_cps`: `none` models the
`expect("since we got `whole` from cp, `M` must have a value for `cp`")`
panic; the `Number` sentinel short-circuits with no candidates and no
shared code points. -/
def getGroupsCandidatesAndSharedCps (s : CodePointsSpecs) :
    List CodePoint → Option (List String) → List CodePoint →
    Option (List String × List CodePoint)
  | [], mg, shared => some (mg.getD [], shared)
  | cp :: rest, mg, shared =>
    match s.wholeMapLookup cp with
    | some (.number _) => some ([], [])
    | some (.wholeObject _ m) =>
      match assocLookup m cp with
      | none => none
      | some names =>
        let mg' := match mg with
          | some gs => some (gs.filter (fun g => names.contains g))
          | none => some names
        getGroupsCandidatesAndSharedCps s rest mg' shared
    | none => getGroupsCandidatesAndSharedCps s rest mg (shared ++ [cp])

/-- The `for group_name in maker` loop of `check_whole`; `none` models the
`expect("group must exist")` panic. -/
def checkWholeLoop (s : CodePointsSpecs) (group : ParsedGroup)
    (shared : List CodePoint) :
    List String → Option (Except ProcessError Unit)
  | [] => some (.ok ())
  | name :: rest =>
    match s.groupByName name with
    | none => none
    | some h =>
      if h.containsAllCps shared then
        some (.error (.confusedGroups (groupNameStr group.name)
          (groupNameStr h.name)))
      else checkWholeLoop s group shared rest

/-- `check_whole` -/
def checkWhole (s : CodePointsSpecs) (group : ParsedGroup)
    (unique : List CodePoint) : Option (Except ProcessError Unit) :=
  match getGroupsCandidatesAndSharedCps s unique none [] with
  | none => none
  | some (maker, shared) => checkWholeLoop s group shared maker

/-- `check_and_get_group` -/
def checkAndGetGroup (s : CodePointsSpecs) (label : List EnsNameToken) :
    Option (Except ProcessError ParsedGroup) :=
  let cps := getCpsOfNotIgnoredText label
  let unique := uniqueCps cps
  match determineGroup s unique with
  | .error e => some (.error e)
  | .ok group =>
    match checkGroup s group cps with
    | .error e => some (.error e)
    | .ok () =>
      match checkWhole s group unique with
      | none => none
      | some (.error e) => some (.error e)
      | some (.ok ()) => some (.ok group)

/-- `validate_label`; `none` models a panic inside `check_whole`. -/
def validateLabel (s : CodePointsSpecs) (label : List EnsNameToken) :
    Option (Except ProcessError ValidatedLabel) :=
  match nonEmpty label with
  | .error e => some (.error e)
  | .ok () =>
  match checkTokenTypes label with
  | .error e => some (.error e)
  | .ok () =>
  if isFullyEmoji label then some (.ok ⟨label, .emoji⟩)
  else
  match underscoreOnlyAtBeginning label with
  | .error e => some (.error e)
  | .ok () =>
  if isFullyAscii label then
    match noHyphenAtSecondAndThird label with
    | .error e => some (.error e)
    | .ok () => some (.ok ⟨label, .ascii⟩)
  else
  match checkFenced s label with
  | .error e => some (.error e)
  | .ok () =>
  match checkCmLeadingEmoji s label with
  | .error e => some (.error e)
  | .ok () =>
  match checkAndGetGroup s label with
  | none => none
  | some (.error e) => some (.error e)
  | some (.ok group) => some (.ok ⟨label, group.name⟩)

/-- The `collect::<Result<Vec<_>, _>>()` over labels: first error wins,
later labels are not validated after an error. -/
def validateLabelsGo (s : CodePointsSpecs) :
    List (List EnsNameToken) → Option (Except ProcessError (List ValidatedLabel))
  | [] => some (.ok [])
  | l :: ls =>
    match validateLabel s l with
    | none => none
    | some (.error e) => some (.error e)
    | some (.ok v) =>
      match validateLabelsGo s ls with
      | none => none
      | some (.error e) => some (.error e)
      | some (.ok vs) => some (.ok (v :: vs))

/-- `validate_name` -/
def validateName (s : CodePointsSpecs) (name : TokenizedName) :
    Option (Except ProcessError (List ValidatedLabel)) :=
  if name.isEmpty then some (.ok [])
  else validateLabelsGo s name.iterLabels

/-! ### Emitter (`join.rs`, `beautify.rs`) -/

/-- `join_cps`: intersperse a stop between the labels' code points and
build a string. -/
def joinCps (cpss : List (List CodePoint)) : List CodePoint :=
  cpsToStr (List.intersperse [cpStop] cpss).flatten

/-- Per-token emission of `join_labels`. -/
def emittedCps : EnsNameToken → List CodePoint
  | .disallowed _ => []
  | .ignored _ => []
  | .stop _ => []
  | .valid cps => cps
  | .mapped _ cps => cps
  | .nfc _ cps => cps
  | .emoji _ _ cpsNoFe0f => cpsNoFe0f

/-- `join_labels` (the snapshot's `join.rs` writes `label.tokenized.tokens`
while `ValidatedLabel` declares the field `tokens`; either way it is the
validated label's token list that is emitted). -/
def joinLabels (labels : List ValidatedLabel) : List CodePoint :=
  joinCps (labels.map fun l => (l.tokens.map emittedCps).flatten)

/-- `beautify.rs`: `cps_replaced_greek` -/
def cpsReplacedGreek (cps : List CodePoint) (labelType : GroupName) :
    List CodePoint :=
  if labelType.isGreek then cps
  else cps.map (fun cp => if cp = cpXiSmall then cpXiCapital else cp)

/-- Per-token emission of `beautify_labels`. -/
def beautifiedCps (labelType : GroupName) : EnsNameToken → List CodePoint
  | .emoji _ em _ => em
  | .valid cps => cpsReplacedGreek cps labelType
  | .mapped _ cps => cpsReplacedGreek cps labelType
  | .nfc _ cps => cpsReplacedGreek cps labelType
  | .ignored _ => []
  | .disallowed _ => []
  | .stop _ => []

/-- `beautify_labels` -/
def beautifyLabels (labels : List ValidatedLabel) : List CodePoint :=
  joinCps (labels.map fun l => (l.tokens.map (beautifiedCps l.labelType)).flatten)

/-! ### Engine (`normalizer.rs`) -/

/-- `normalizer.rs`: `ProcessedName` -/
structure ProcessedName where
  labels : List ValidatedLabel
  tokenized : TokenizedName
deriving DecidableEq, Repr

/-- `EnsNameNormalizer::tokenize` (NFC applied). -/
def tokenize (s : CodePointsSpecs) (input : List CodePoint) : TokenizedName :=
  tokenizeName s input true

/-- `EnsNameNormalizer::process`; `none` models a panic. -/
def process (s : CodePointsSpecs) (input : List CodePoint) :
    Option (Except ProcessError ProcessedName) :=
  let tokenized := tokenize s input
  match validateName s tokenized with
  | none => none
  | some (.error e) => some (.error e)
  | some (.ok labels) => some (.ok ⟨labels, tokenized⟩)

/-- `EnsNameNormalizer::normalize` (`ProcessedName::normalize`). -/
def normalize (s : CodePointsSpecs) (input : List CodePoint) :
    Option (Except ProcessError (List CodePoint)) :=
  match process s input with
  | none => none
  | some (.error e) => some (.error e)
  | some (.ok p) => some (.ok (joinLabels p.labels))

/-- `EnsNameNormalizer::beautify` (`ProcessedName::beautify`). -/
def beautify (s : CodePointsSpecs) (input : List CodePoint) :
    Option (Except ProcessError (List CodePoint)) :=
  match process s input with
  | none => none
  | some (.error e) => some (.error e)
  | some (.ok p) => some (.ok (beautifyLabels p.labels))

/-! ### Statement-side definitions for the claims -/

/-- Sum of `input_size()` over a token list (claim C2's invariant). -/
def sumInputSizes (ts : List EnsNameToken) : Nat :=
  (ts.map EnsNameToken.inputSize).sum

/-- The first token of the list is a `Stop` (a leading stop in the input). -/
def leadingStop : List EnsNameToken → Bool
  | [] => false
  | t :: _ => t.isStopTok

/-- The last token of the list is a `Stop` (a trailing stop in the input). -/
def trailingStop (ts : List EnsNameToken) : Bool :=
  match ts.getLast? with
  | some t => t.isStopTok
  | none => false

/-- Two adjacent `Stop` tokens (two consecutive stop characters). -/
def hasAdjacentStops : List EnsNameToken → Bool
  | t1 :: t2 :: rest => (t1.isStopTok && t2.isStopTok) || hasAdjacentStops (t2 :: rest)
  | _ => false

/-- The `M`-entry list of a `whole_map` value (empty for `Number`). -/
def mEntriesOf : ParsedWholeValue → List (CodePoint × List String)
  | .wholeObject _ m => m
  | .number _ => []

/-- Claim C10's precondition: every group name occurring in a `whole_map`
`M`-set names a group present in the spec's group list. -/
def wholeMapNamesResolvable (s : CodePointsSpecs) : Prop :=
  ∀ p ∈ s.wholeMap, ∀ e ∈ mEntriesOf p.2, ∀ n ∈ e.2, (s.groupByName n).isSome

/-- The amended claim C10's additional precondition: every `WholeObject`
entry of `whole_map` has an `M`-value for its own key. -/
def wholeMapSelfKeyed (s : CodePointsSpecs) : Prop :=
  ∀ p ∈ s.wholeMap, ∀ v m, p.2 = ParsedWholeValue.wholeObject v m →
    (assocLookup m p.1).isSome

/-- A name occurs in some `M`-set of the `whole_map`. -/
def nameInWholeMap (s : CodePointsSpecs) (n : String) : Prop :=
  ∃ p ∈ s.wholeMap, ∃ e ∈ mEntriesOf p.2, n ∈ e.2

/-- The `M`-sets consulted by the candidate scan, in order of the unique
code points (claim C5: `WholeObject` entries contribute `M[cp]`). -/
def msetsOf (s : CodePointsSpecs) (ucps : List CodePoint) : List (List String) :=
  ucps.filterMap fun cp =>
    match s.wholeMapLookup cp with
    | some (.wholeObject _ m) => assocLookup m cp
    | _ => none

/-- Left fold intersecting candidate name lists (order of the first set). -/
def foldInter (init : List String) (ms : List (List String)) : List String :=
  ms.foldl (fun acc names => acc.filter (fun g => names.contains g)) init

/-- Claim C5's candidate set: intersection of all consulted `M`-sets,
initialized at the first one (empty when none is consulted). -/
def intersectNames : List (List String) → List String
  | [] => []
  | m :: ms => foldInter m ms

/-- Claim C6's display form of one token: the pretty `emoji` field for
emoji tokens; for text code points U+03BE becomes U+039E exactly when the
label's type is not `Greek`. -/
def beautifySpecToken (lt : GroupName) : EnsNameToken → List CodePoint
  | .emoji _ pretty _ => pretty
  | .valid cps =>
      if lt = .greek then cps
      else cps.map (fun cp => if cp = cpXiSmall then cpXiCapital else cp)
  | .mapped _ cps =>
      if lt = .greek then cps
      else cps.map (fun cp => if cp = cpXiSmall then cpXiCapital else cp)
  | .nfc _ cps =>
      if lt = .greek then cps
      else cps.map (fun cp => if cp = cpXiSmall then cpXiCapital else cp)
  | _ => []

/-- Claim C6's whole output: per-label display code points joined with a
single stop code point (string building drops non-scalar values). -/
def beautifySpecOutput (labels : List ValidatedLabel) : List CodePoint :=
  cpsToStr
    (List.intersperse [cpStop]
      (labels.map fun l => l.tokens.flatMap (beautifySpecToken l.labelType))).flatten

/-! ### Concrete instances for witnesses and counterexamples -/

/-- A minimal all-text specification (Latin-like letters, underscore,
hyphen; no emoji, no NFC checks, identity NFC). -/
def specsAscii : CodePointsSpecs :=
  { cm := [], ignored := [], mapped := [], nfcCheck := [], wholeMap := [],
    fenced := [],
    groups := [⟨.other "Latin", [97, 98, 99, 95, 45], [], true⟩],
    valid := CodePointsSpecs.computeValid
      [⟨.other "Latin", [97, 98, 99, 95, 45], [], true⟩] [],
    nsm := [], nsmMax := 4, emojis := [], decomp := [],
    nfc := fun cps => cps }

/-- Specification exercising the selective-NFC pass exactly as the
`with_nfc` test of `tokens/tokenize.rs` does: `a` (U+0061) is valid,
U+FE0F and U+00AD are ignored, the combining macron U+0304 is valid and
`nfc_check`-ed, and NFC composes `a` + U+0304 to `ā` (U+0101). -/
def specsNfcCex : CodePointsSpecs :=
  { cm := [], ignored := [0xFE0F, 0xAD], mapped := [], nfcCheck := [772],
    wholeMap := [], fenced := [],
    groups := [⟨.other "Latin", [97, 772, 257], [], true⟩],
    valid := CodePointsSpecs.computeValid
      [⟨.other "Latin", [97, 772, 257], [], true⟩] [],
    nsm := [], nsmMax := 4, emojis := [], decomp := [],
    nfc := fun cps => if cps = [97, 772] then [257] else cps }

/-- Specification mirroring the ENSIP-15 classifications relevant to
`"Ni‍ck.ETH"`: lowercase letters valid, uppercase letters mapped to
lowercase, and U+200D (ZWJ) neither valid nor ignored nor mapped, hence
`Disallowed` outside an emoji. -/
def specs4 : CodePointsSpecs :=
  { cm := [], ignored := [],
    mapped := [(78, [110]), (69, [101]), (84, [116]), (72, [104])],
    nfcCheck := [], wholeMap := [], fenced := [],
    groups := [⟨.other "Latin", [110, 105, 99, 107, 101, 116, 104], [], true⟩],
    valid := CodePointsSpecs.computeValid
      [⟨.other "Latin", [110, 105, 99, 107, 101, 116, 104], [], true⟩] [],
    nsm := [], nsmMax := 4, emojis := [], decomp := [],
    nfc := fun cps => cps }

/-- The single group named `"X"` used by the whole-script instances. -/
def gX : ParsedGroup := ⟨.other "X", [256], [], true⟩

/-- Specification whose `whole_map` lists the determined group itself in
an `M`-set: `check_whole` then reports `ConfusedGroups` with
`group2 = group1`. -/
def specsWholeSelf : CodePointsSpecs :=
  { cm := [], ignored := [], mapped := [], nfcCheck := [],
    wholeMap := [(256, .wholeObject [] [(256, ["X"])])], fenced := [],
    groups := [gX],
    valid := CodePointsSpecs.computeValid [gX] [],
    nsm := [], nsmMax := 4, emojis := [], decomp := [],
    nfc := fun cps => cps }

/-- Specification with a `WholeObject` whose `M` lacks its own key: the
`expect` in `get_groups_candidates_and_shared_cps` panics. -/
def specsWholePanic : CodePointsSpecs :=
  { cm := [], ignored := [], mapped := [], nfcCheck := [],
    wholeMap := [(256, .wholeObject [] [])], fenced := [],
    groups := [gX],
    valid := CodePointsSpecs.computeValid [gX] [],
    nsm := [], nsmMax := 4, emojis := [], decomp := [],
    nfc := fun cps => cps }

/-- Specification with a `Number` sentinel in the `whole_map`. -/
def specsNum : CodePointsSpecs :=
  { cm := [], ignored := [], mapped := [], nfcCheck := [],
    wholeMap := [(256, .number 1)], fenced := [],
    groups := [gX],
    valid := CodePointsSpecs.computeValid [gX] [],
    nsm := [], nsmMax := 4, emojis := [], decomp := [],
    nfc := fun cps => cps }

/-- Specification whose NFC function is not idempotent (`[97] ↦ [98]`,
`[98] ↦ [99]`): used to show that idempotence of `normalize` (claim C1)
is not a consequence of the algorithm but of the external NFC
implementation and the static tables. -/
def specsNfcChain : CodePointsSpecs :=
  { cm := [], ignored := [], mapped := [], nfcCheck := [97, 98],
    wholeMap := [], fenced := [],
    groups := [⟨.other "Latin", [97, 98, 99], [], true⟩],
    valid := CodePointsSpecs.computeValid
      [⟨.other "Latin", [97, 98, 99], [], true⟩] [],
    nsm := [], nsmMax := 4, emojis := [], decomp := [],
    nfc := fun cps => if cps = [97] then [98] else if cps = [98] then [99] else cps }

/-- Specification where Ξ (U+039E) is valid in a non-Greek group and not
mapped back to ξ (U+03BE): used to show that the beautify round-trip
(claim C7) is not a consequence of the algorithm but of the `mapped`
table of the static data. -/
def specsXi : CodePointsSpecs :=
  { cm := [], ignored := [], mapped := [], nfcCheck := [], wholeMap := [],
    fenced := [],
    groups := [⟨.other "Foo", [958, 926], [], true⟩],
    valid := CodePointsSpecs.computeValid [⟨.other "Foo", [958, 926], [], true⟩] [],
    nsm := [], nsmMax := 4, emojis := [], decomp := [],
    nfc := fun cps => cps }

/-! ## Helper lemmas -/

/-- Fidelity of `collapseValidTokens` to the source's left-to-right
splice loop: a leading `Valid` token absorbs exactly the maximal run of
following `Valid` tokens (their concatenated code points), and collapsing
continues after that run — the `i..j` splice of
`collapse_valid_tokens`. -/
theorem collapseValidTokens_cons_valid (cps : List CodePoint) :
    ∀ rest : List EnsNameToken,
    collapseValidTokens (.valid cps :: rest) =
      .valid (cps ++ (((rest.takeWhile EnsNameToken.isValidTok).map
        EnsNameToken.cpsOf).flatten)) ::
        collapseValidTokens (rest.dropWhile EnsNameToken.isValidTok) := by
  intro rest
  induction rest generalizing cps with
  | nil => simp [collapseValidTokens]
  | cons t r2 ih =>
    cases t with
    | valid cps2 =>
      have h1 : collapseValidTokens (.valid cps :: .valid cps2 :: r2) =
          match collapseValidTokens (.valid cps2 :: r2) with
          | .valid c :: out => .valid (cps ++ c) :: out
          | out => .valid cps :: out := rfl
      rw [h1, ih cps2]
      simp [List.takeWhile_cons, List.dropWhile_cons, EnsNameToken.isValidTok,
        EnsNameToken.cpsOf, List.append_assoc]
    | mapped cp cps2 =>
      simp [collapseValidTokens, List.takeWhile_cons, List.dropWhile_cons,
        EnsNameToken.isValidTok]
    | ignored cp =>
      simp [collapseValidTokens, List.takeWhile_cons, List.dropWhile_cons,
        EnsNameToken.isValidTok]
    | disallowed cp =>
      simp [collapseValidTokens, List.takeWhile_cons, List.dropWhile_cons,
        EnsNameToken.isValidTok]
    | stop cp =>
      simp [collapseValidTokens, List.takeWhile_cons, List.dropWhile_cons,
        EnsNameToken.isValidTok]
    | nfc inp cps2 =>
      simp [collapseValidTokens, List.takeWhile_cons, List.dropWhile_cons,
        EnsNameToken.isValidTok]
    | emoji a b c =>
      simp [collapseValidTokens, List.takeWhile_cons, List.dropWhile_cons,
        EnsNameToken.isValidTok]

theorem beautifiedCps_eq_specToken (lt : GroupName) (t : EnsNameToken) :
    beautifiedCps lt t = beautifySpecToken lt t := by
  cases t with
  | emoji ci em nf => rfl
  | valid cps =>
      cases lt <;>
        simp [beautifiedCps, beautifySpecToken, cpsReplacedGreek, GroupName.isGreek]
  | mapped cp cps =>
      cases lt <;>
        simp [beautifiedCps, beautifySpecToken, cpsReplacedGreek, GroupName.isGreek]
  | nfc inp cps =>
      cases lt <;>
        simp [beautifiedCps, beautifySpecToken, cpsReplacedGreek, GroupName.isGreek]
  | ignored cp => rfl
  | disallowed cp => rfl
  | stop cp => rfl

theorem beautifyLabels_eq_spec (labels : List ValidatedLabel) :
    beautifyLabels labels = beautifySpecOutput labels := by
  unfold beautifyLabels beautifySpecOutput joinCps
  have h : ∀ l : ValidatedLabel,
      (l.tokens.map (beautifiedCps l.labelType)).flatten =
        l.tokens.flatMap (beautifySpecToken l.labelType) := by
    intro l
    rw [List.flatMap_def]
    congr 1
    exact List.map_congr_left (fun t _ => beautifiedCps_eq_specToken l.labelType t)
  rw [List.map_congr_left (fun l _ => h l)]

/-- The shared code points predicted by claim C5: the unique code points
absent from the `whole_map`, in order. -/
def sharedSpec (s : CodePointsSpecs) (ucps : List CodePoint) : List CodePoint :=
  ucps.filter (fun cp => (s.wholeMapLookup cp).isNone)

theorem gcs_number_short (s : CodePointsSpecs) :
    ∀ (ucps : List CodePoint) (mg : Option (List String)) (sh : List CodePoint),
    (∀ cp ∈ ucps, ∀ v m, s.wholeMapLookup cp = some (.wholeObject v m) →
      (assocLookup m cp).isSome) →
    (∃ cp ∈ ucps, ∃ n, s.wholeMapLookup cp = some (.number n)) →
    getGroupsCandidatesAndSharedCps s ucps mg sh = some ([], []) := by
  intro ucps
  induction ucps with
  | nil =>
    intro mg sh _ hex
    obtain ⟨cp, hcp, _⟩ := hex
    exact absurd hcp (List.not_mem_nil cp)
  | cons cp rest ih =>
    intro mg sh hp2 hex
    cases hwm : s.wholeMapLookup cp with
    | none =>
      simp only [getGroupsCandidatesAndSharedCps, hwm]
      apply ih _ _ (fun c hc => hp2 c (List.mem_cons_of_mem cp hc))
      obtain ⟨c, hc, n, hn⟩ := hex
      rcases List.mem_cons.mp hc with rfl | hc'
      · rw [hwm] at hn; exact absurd hn (by simp)
      · exact ⟨c, hc', n, hn⟩
    | some v =>
      cases v with
      | number n => simp only [getGroupsCandidatesAndSharedCps, hwm]
      | wholeObject vv m =>
        have hks := hp2 cp (List.mem_cons_self cp rest) vv m hwm
        obtain ⟨names, hnames⟩ := Option.isSome_iff_exists.mp hks
        simp only [getGroupsCandidatesAndSharedCps, hwm, hnames]
        apply ih _ _ (fun c hc => hp2 c (List.mem_cons_of_mem cp hc))
        obtain ⟨c, hc, n, hn⟩ := hex
        rcases List.mem_cons.mp hc with rfl | hc'
        · rw [hwm] at hn; exact absurd hn (by simp)
        · exact ⟨c, hc', n, hn⟩

theorem gcs_no_number_characterization (s : CodePointsSpecs) :
    ∀ (ucps : List CodePoint) (mg : Option (List String)) (sh : List CodePoint),
    (∀ cp ∈ ucps, ∀ v m, s.wholeMapLookup cp = some (.wholeObject v m) →
      (assocLookup m cp).isSome) →
    (∀ cp ∈ ucps, ∀ n, ¬ s.wholeMapLookup cp = some (.number n)) →
    getGroupsCandidatesAndSharedCps s ucps mg sh =
      some ((match mg with
             | some gs => foldInter gs (msetsOf s ucps)
             | none => intersectNames (msetsOf s ucps)),
            sh ++ sharedSpec s ucps) := by
  intro ucps
  induction ucps with
  | nil =>
    intro mg sh _ _
    cases mg <;> simp [getGroupsCandidatesAndSharedCps, msetsOf, sharedSpec,
      intersectNames, foldInter]
  | cons cp rest ih =>
    intro mg sh hp2 hnn
    cases hwm : s.wholeMapLookup cp with
    | none =>
      have hrec := ih mg (sh ++ [cp])
        (fun c hc => hp2 c (List.mem_cons_of_mem cp hc))
        (fun c hc => hnn c (List.mem_cons_of_mem cp hc))
      simp only [getGroupsCandidatesAndSharedCps, hwm, hrec]
      have hms : msetsOf s (cp :: rest) = msetsOf s rest := by
        simp [msetsOf, hwm]
      have hsh : sharedSpec s (cp :: rest) = cp :: sharedSpec s rest := by
        simp [sharedSpec, hwm]
      rw [hms, hsh]
      simp
    | some v =>
      cases v with
      | number n => exact absurd hwm (hnn cp (List.mem_cons_self cp rest) n)
      | wholeObject vv m =>
        have hks := hp2 cp (List.mem_cons_self cp rest) vv m hwm
        obtain ⟨names, hnames⟩ := Option.isSome_iff_exists.mp hks
        have hms : msetsOf s (cp :: rest) = names :: msetsOf s rest := by
          simp [msetsOf, hwm, hnames]
        have hsh : sharedSpec s (cp :: rest) = sharedSpec s rest := by
          simp [sharedSpec, hwm]
        cases mg with
        | none =>
          have hrec := ih (some names) sh
            (fun c hc => hp2 c (List.mem_cons_of_mem cp hc))
            (fun c hc => hnn c (List.mem_cons_of_mem cp hc))
          simp only [getGroupsCandidatesAndSharedCps, hwm, hnames, hrec]
          rw [hms, hsh]
          simp [intersectNames]
        | some gs =>
          have hrec := ih (some (gs.filter (fun g => names.contains g))) sh
            (fun c hc => hp2 c (List.mem_cons_of_mem cp hc))
            (fun c hc => hnn c (List.mem_cons_of_mem cp hc))
          simp only [getGroupsCandidatesAndSharedCps, hwm, hnames, hrec]
          rw [hms, hsh]
          simp [foldInter]

/-! ## Claim theorems -/

/-- C9: for the empty input string, `process` and `normalize` succeed for
every specification: the tokenizer yields the empty token sequence,
`validate_name` returns the empty label list (the per-label empty-label
check never runs), and `normalize` returns the empty string rather than
an `EmptyLabel` error. -/
theorem claim_C9_empty_input_ok (s : CodePointsSpecs) :
    tokenizeName s [] true = TokenizedName.empty ∧
    validateName s (tokenizeName s [] true) = some (.ok []) ∧
    process s [] = some (.ok ⟨[], TokenizedName.empty⟩) ∧
    normalize s [] = some (.ok []) :=
  ⟨rfl, rfl, rfl, rfl⟩

/-- Supporting C1 (left unresolved): with a non-idempotent NFC function
the algorithm is not idempotent — `normalize` maps `"a"` to `"b"` but
`"b"` to `"c"`.  Idempotence of the shipped program therefore rests on
semantic properties of the opaque static data and of the external
`unicode_normalization` crate, not on the algorithm under `src/`. -/
theorem normalize_not_idempotent_for_bad_nfc :
    normalize specsNfcChain [97] = some (.ok [98]) ∧
    normalize specsNfcChain [98] = some (.ok [99]) :=
  ⟨rfl, rfl⟩

/-- Supporting C7 (left unresolved): with data where Ξ (U+039E) is valid
and not mapped back to ξ (U+03BE), `normalize (beautify x)` differs from
`normalize x` — the round-trip rests on the `mapped` table of the opaque
static data (`mapped(0x39E) = [0x3BE]` in the shipped tables), not on
the algorithm under `src/`. -/
theorem beautify_roundtrip_fails_for_bad_mapped :
    normalize specsXi [958] = some (.ok [958]) ∧
    beautify specsXi [958] = some (.ok [926]) ∧
    normalize specsXi [926] = some (.ok [926]) :=
  ⟨rfl, rfl, rfl⟩

/-- Recognizer for the `InvisibleCharacter` error shape. -/
def isInvisibleErr : ProcessError → Bool
  | .disallowedSequence (.invisibleCharacter _) => true
  | _ => false

theorem nonEmpty_err (label : List EnsNameToken) (e : ProcessError)
    (h : nonEmpty label = .error e) : isInvisibleErr e = false := by
  unfold nonEmpty at h
  split at h
  · exact absurd h (by simp)
  · rw [← Except.error.inj h]
    rfl

theorem checkTokenTypes_err (label : List EnsNameToken) (e : ProcessError)
    (h : checkTokenTypes label = .error e) : isInvisibleErr e = false := by
  unfold checkTokenTypes at h
  split at h
  · rw [← Except.error.inj h]
    rfl
  · exact absurd h (by simp)

theorem underscore_err (label : List EnsNameToken) (e : ProcessError)
    (h : underscoreOnlyAtBeginning label = .error e) : isInvisibleErr e = false := by
  unfold underscoreOnlyAtBeginning at h
  dsimp only at h
  split at h
  · rw [← Except.error.inj h]
    rfl
  · exact absurd h (by simp)

theorem hyphen_err (label : List EnsNameToken) (e : ProcessError)
    (h : noHyphenAtSecondAndThird label = .error e) : isInvisibleErr e = false := by
  unfold noHyphenAtSecondAndThird at h
  dsimp only at h
  split at h
  · rw [← Except.error.inj h]
    rfl
  · exact absurd h (by simp)

theorem fencedWindowScan_err (s : CodePointsSpecs) :
    ∀ (cps : List CodePoint) (i : Nat) (e : ProcessError),
    fencedWindowScan s i cps = .error e → isInvisibleErr e = false := by
  intro cps
  induction cps with
  | nil => intro i e h; exact absurd h (by simp [fencedWindowScan])
  | cons a rest ih =>
    intro i e h
    cases rest with
    | nil => exact absurd h (by simp [fencedWindowScan])
    | cons b rest2 =>
      unfold fencedWindowScan at h
      split at h
      · rw [← Except.error.inj h]
        rfl
      · exact ih (i + 1) e h

theorem checkFenced_err (s : CodePointsSpecs) (label : List EnsNameToken)
    (e : ProcessError) (h : checkFenced s label = .error e) :
    isInvisibleErr e = false := by
  unfold checkFenced at h
  dsimp only at h
  split at h
  · split at h
    · rw [← Except.error.inj h]
      rfl
    · split at h
      · split at h
        · rw [← Except.error.inj h]
          rfl
        · exact fencedWindowScan_err s _ 0 e h
      · exact fencedWindowScan_err s _ 0 e h
  · split at h
    · split at h
      · rw [← Except.error.inj h]
        rfl
      · exact fencedWindowScan_err s _ 0 e h
    · exact fencedWindowScan_err s _ 0 e h

theorem cmScan_err (s : CodePointsSpecs) :
    ∀ (toks : List CollapsedEnsNameToken) (i idx : Nat) (e : ProcessError),
    cmScan s i idx toks = .error e → isInvisibleErr e = false := by
  intro toks
  induction toks with
  | nil => intro i idx e h; exact absurd h (by simp [cmScan])
  | cons tok rest ih =>
    intro i idx e h
    unfold cmScan at h
    cases tok with
    | text cps =>
      dsimp only at h
      split at h
      · split at h
        · split at h
          · rw [← Except.error.inj h]
            rfl
          · rw [← Except.error.inj h]
            rfl
        · exact ih _ _ e h
      · exact ih _ _ e h
    | emoji a b c =>
      dsimp only at h
      exact ih _ _ e h

theorem checkCm_err (s : CodePointsSpecs) (label : List EnsNameToken)
    (e : ProcessError) (h : checkCmLeadingEmoji s label = .error e) :
    isInvisibleErr e = false :=
  cmScan_err s _ 0 0 e h

theorem determineGroup_err (s : CodePointsSpecs) (unique : List CodePoint)
    (e : ProcessError) (h : determineGroup s unique = .error e) :
    isInvisibleErr e = false := by
  unfold determineGroup at h
  split at h
  · exact absurd h (by simp)
  · rw [← Except.error.inj h]
    rfl

theorem nsmInnerLoop_err (s : CodePointsSpecs) (d : List CodePoint) (i : Nat) :
    ∀ (fuel j : Nat) (e : DisallowedSequence),
    nsmInnerLoop s d i fuel j = .error e →
    e = .nsmTooMany ∨ e = .nsmRepeated := by
  intro fuel
  induction fuel with
  | zero => intro j e h; exact absurd h (by simp [nsmInnerLoop])
  | succ fuel ih =>
    intro j e h
    unfold nsmInnerLoop at h
    split at h
    · split at h
      · split at h
        · exact Or.inl (Except.error.inj h).symm
        · split at h
          · exact Or.inr (Except.error.inj h).symm
          · exact ih (j + 1) e h
      · exact absurd h (by simp)
    · exact absurd h (by simp)

theorem nsmOuterLoop_err (s : CodePointsSpecs) (d : List CodePoint) :
    ∀ (fuel i : Nat) (e : DisallowedSequence),
    nsmOuterLoop s d fuel i = .error e →
    e = .nsmTooMany ∨ e = .nsmRepeated := by
  intro fuel
  induction fuel with
  | zero => intro i e h; exact absurd h (by simp [nsmOuterLoop])
  | succ fuel ih =>
    intro i e h
    unfold nsmOuterLoop at h
    split at h
    · split at h
      · split at h
        · rename_i e' he'
          rw [← Except.error.inj h]
          exact nsmInnerLoop_err s d i _ _ e' he'
        · exact ih _ e h
      · exact ih _ e h
    · exact absurd h (by simp)

theorem checkGroup_err (s : CodePointsSpecs) (group : ParsedGroup)
    (cps : List CodePoint) (e : ProcessError)
    (h : checkGroup s group cps = .error e) : isInvisibleErr e = false := by
  unfold checkGroup at h
  split at h
  · rw [← Except.error.inj h]
    rfl
  · split at h
    · dsimp only at h
      split at h
      · rename_i e' he'
        rw [← Except.error.inj h]
        rcases nsmOuterLoop_err s _ _ _ e' he' with rfl | rfl <;> rfl
      · exact absurd h (by simp)
    · exact absurd h (by simp)

theorem checkWholeLoop_err (s : CodePointsSpecs) (group : ParsedGroup)
    (shared : List CodePoint) :
    ∀ (maker : List String) (e : ProcessError),
    checkWholeLoop s group shared maker = some (.error e) →
    isInvisibleErr e = false := by
  intro maker
  induction maker with
  | nil => intro e h; exact absurd h (by simp [checkWholeLoop])
  | cons name rest ih =>
    intro e h
    unfold checkWholeLoop at h
    split at h
    · exact absurd h (by simp)
    · split at h
      · rw [← Except.error.inj (Option.some.inj h)]
        rfl
      · exact ih e h

theorem checkWhole_err (s : CodePointsSpecs) (group : ParsedGroup)
    (unique : List CodePoint) (e : ProcessError)
    (h : checkWhole s group unique = some (.error e)) :
    isInvisibleErr e = false := by
  unfold checkWhole at h
  split at h
  · exact absurd h (by simp)
  · exact checkWholeLoop_err s group _ _ e h

theorem checkAndGetGroup_err (s : CodePointsSpecs) (label : List EnsNameToken)
    (e : ProcessError) (h : checkAndGetGroup s label = some (.error e)) :
    isInvisibleErr e = false := by
  unfold checkAndGetGroup at h
  dsimp only at h
  split at h
  · rename_i e' he'
    rw [← Except.error.inj (Option.some.inj h)]
    exact determineGroup_err s _ e' he'
  · split at h
    · rename_i e' he'
      rw [← Except.error.inj (Option.some.inj h)]
      exact checkGroup_err s _ _ e' he'
    · split at h
      · exact absurd h (by simp)
      · rename_i e' he'
        rw [← Except.error.inj (Option.some.inj h)]
        exact checkWhole_err s _ _ e' he'
      · exact absurd h (by simp)

theorem validateLabel_err (s : CodePointsSpecs) (label : List EnsNameToken)
    (e : ProcessError) (h : validateLabel s label = some (.error e)) :
    isInvisibleErr e = false := by
  unfold validateLabel at h
  split at h
  · rename_i e' he'
    rw [← Except.error.inj (Option.some.inj h)]
    exact nonEmpty_err label e' he'
  · split at h
    · rename_i e' he'
      rw [← Except.error.inj (Option.some.inj h)]
      exact checkTokenTypes_err label e' he'
    · split at h
      · exact absurd h (by simp)
      · split at h
        · rename_i e' he'
          rw [← Except.error.inj (Option.some.inj h)]
          exact underscore_err label e' he'
        · split at h
          · split at h
            · rename_i e' he'
              rw [← Except.error.inj (Option.some.inj h)]
              exact hyphen_err label e' he'
            · exact absurd h (by simp)
          · split at h
            · rename_i e' he'
              rw [← Except.error.inj (Option.some.inj h)]
              exact checkFenced_err s label e' he'
            · split at h
              · rename_i e' he'
                rw [← Except.error.inj (Option.some.inj h)]
                exact checkCm_err s label e' he'
              · split at h
                · exact absurd h (by simp)
                · rename_i e' he'
                  rw [← Except.error.inj (Option.some.inj h)]
                  exact checkAndGetGroup_err s label e' he'
                · exact absurd h (by simp)

theorem validateLabelsGo_err (s : CodePointsSpecs) :
    ∀ (ls : List (List EnsNameToken)) (e : ProcessError),
    validateLabelsGo s ls = some (.error e) → isInvisibleErr e = false := by
  intro ls
  induction ls with
  | nil => intro e h; exact absurd h (by simp [validateLabelsGo])
  | cons l rest ih =>
    intro e h
    unfold validateLabelsGo at h
    split at h
    · exact absurd h (by simp)
    · rename_i e' he'
      rw [← Except.error.inj (Option.some.inj h)]
      exact validateLabel_err s l e' he'
    · split at h
      · exact absurd h (by simp)
      · rename_i e' he'
        rw [← Except.error.inj (Option.some.inj h)]
        exact ih e' he'
      · exact absurd h (by simp)

theorem validateName_err (s : CodePointsSpecs) (name : TokenizedName)
    (e : ProcessError) (h : validateName s name = some (.error e)) :
    isInvisibleErr e = false := by
  unfold validateName at h
  split at h
  · exact absurd h (by simp)
  · exact validateLabelsGo_err s _ e h

theorem process_err (s : CodePointsSpecs) (input : List CodePoint)
    (e : ProcessError) (h : process s input = some (.error e)) :
    isInvisibleErr e = false := by
  unfold process at h
  dsimp only at h
  split at h
  · exact absurd h (by simp)
  · rename_i e' he'
    rw [← Except.error.inj (Option.some.inj h)]
    exact validateName_err s _ e' he'
  · exact absurd h (by simp)

/-- Supporting C4: for every specification and every input, `normalize`
can never fail with `DisallowedSequence::InvisibleCharacter` — the
variant is declared in `error.rs` but no code path constructs it. -/
theorem normalize_never_invisible (s : CodePointsSpecs)
    (input : List CodePoint) (cp : CodePoint) :
    normalize s input ≠
      some (.error (.disallowedSequence (.invisibleCharacter cp))) := by
  intro h
  unfold normalize at h
  split at h
  · exact absurd h (by simp)
  · rename_i e' he'
    have he : e' = .disallowedSequence (.invisibleCharacter cp) :=
      Except.error.inj (Option.some.inj h)
    subst he
    have hfalse := process_err s input _ he'
    exact absurd hfalse (by simp [isInvisibleErr])
  · exact absurd h (by simp)

/-- C4: on `"Ni‍ck.ETH"` (code points `N i U+200D c k . E T H`, with
ENSIP-15-style classifications: lowercase valid, uppercase mapped, U+200D
neither valid nor ignored nor mapped) the code tokenizes the ZWJ as
`Disallowed` and `check_token_types` fails with
`DisallowedSequence::Invalid("\u{200d}")` — not with the
`DisallowedSequence::InvisibleCharacter(0x200d)` the spec (and
`examples/simple.rs`) claim; `InvisibleCharacter` is never constructed
anywhere in the library. -/
theorem claim_C4_ni_zwj_divergence :
    normalize specs4 [78, 105, 8205, 99, 107, 46, 69, 84, 72] =
        some (.error (.disallowedSequence (.invalid [8205]))) ∧
    ∀ cp, normalize specs4 [78, 105, 8205, 99, 107, 46, 69, 84, 72] ≠
        some (.error (.disallowedSequence (.invisibleCharacter cp))) := by
  refine ⟨rfl, fun cp h => ?_⟩
  have h0 : normalize specs4 [78, 105, 8205, 99, 107, 46, 69, 84, 72] =
      some (.error (.disallowedSequence (.invalid [8205]))) := rfl
  rw [h0] at h
  simp at h

/-- C6: for every successfully processed name, `beautify` emits, per
validated label, the emoji token's pretty `emoji` field (FE0F included)
in place of its bare form, and for text code points replaces U+03BE by
U+039E exactly when the label's type is not `Greek`; labels are joined
with a single stop code point (`beautifySpecOutput` states this
construction in the claim's words). -/
theorem claim_C6_beautify_display (s : CodePointsSpecs) (input : List CodePoint)
    (p : ProcessedName) (h : process s input = some (.ok p)) :
    beautify s input = some (.ok (beautifySpecOutput p.labels)) := by
  unfold beautify
  rw [h]
  simp only [← beautifyLabels_eq_spec]

theorem claim_C6_beautify_display_witness :
    beautify specsAscii [97] =
      some (.ok (beautifySpecOutput [⟨[.valid [97]], .ascii⟩])) :=
  claim_C6_beautify_display specsAscii [97]
    ⟨[⟨[.valid [97]], .ascii⟩], ⟨[97], [.valid [97]]⟩⟩ rfl

theorem matchEmojiPattern_consumed_append :
    ∀ (p input consumed : List CodePoint),
    matchEmojiPattern p input = some consumed → ∃ t, input = consumed ++ t := by
  intro p
  induction p with
  | nil =>
    intro input consumed h
    simp only [matchEmojiPattern, Option.some.injEq] at h
    exact ⟨input, by rw [← h]; rfl⟩
  | cons p ps ih =>
    intro input consumed h
    by_cases hp : p = cpFe0f
    · simp only [matchEmojiPattern, if_pos hp] at h
      cases input with
      | nil => exact ih [] consumed h
      | cons c cs =>
        by_cases hc : c = cpFe0f
        · simp only [if_pos hc] at h
          cases hm : matchEmojiPattern ps cs with
          | some rest =>
            rw [hm] at h
            simp only [Option.some.injEq] at h
            obtain ⟨t, ht⟩ := ih cs rest hm
            refine ⟨t, ?_⟩
            rw [← h, ht, hc]
            rfl
          | none =>
            rw [hm] at h
            exact ih (c :: cs) consumed h
        · simp only [if_neg hc] at h
          exact ih (c :: cs) consumed h
    · simp only [matchEmojiPattern, if_neg hp] at h
      cases input with
      | nil => exact absurd h (by simp)
      | cons c cs =>
        by_cases hc : c = p
        · simp only [if_pos hc] at h
          cases hm : matchEmojiPattern ps cs with
          | some rest =>
            rw [hm] at h
            simp only [Option.map_some', Option.some.injEq] at h
            obtain ⟨t, ht⟩ := ih cs rest hm
            refine ⟨t, ?_⟩
            rw [← h, ht, hc]
            rfl
          | none => rw [hm] at h; simp at h
        · simp only [if_neg hc] at h
          exact absurd h (by simp)

theorem matchEmojiPattern_filter :
    ∀ (p input consumed : List CodePoint),
    matchEmojiPattern p input = some consumed →
    filterFe0f consumed = filterFe0f p := by
  intro p
  induction p with
  | nil =>
    intro input consumed h
    simp only [matchEmojiPattern, Option.some.injEq] at h
    rw [← h]
  | cons p ps ih =>
    intro input consumed h
    by_cases hp : p = cpFe0f
    · have hfp : filterFe0f (p :: ps) = filterFe0f ps := by
        simp [filterFe0f, hp]
      rw [hfp]
      simp only [matchEmojiPattern, if_pos hp] at h
      cases input with
      | nil => exact ih [] consumed h
      | cons c cs =>
        by_cases hc : c = cpFe0f
        · simp only [if_pos hc] at h
          cases hm : matchEmojiPattern ps cs with
          | some rest =>
            rw [hm] at h
            simp only [Option.some.injEq] at h
            rw [← h]
            have : filterFe0f (cpFe0f :: rest) = filterFe0f rest := by
              simp [filterFe0f]
            rw [this]
            exact ih cs rest hm
          | none =>
            rw [hm] at h
            exact ih (c :: cs) consumed h
        · simp only [if_neg hc] at h
          exact ih (c :: cs) consumed h
    · simp only [matchEmojiPattern, if_neg hp] at h
      cases input with
      | nil => exact absurd h (by simp)
      | cons c cs =>
        by_cases hc : c = p
        · simp only [if_pos hc] at h
          cases hm : matchEmojiPattern ps cs with
          | some rest =>
            rw [hm] at h
            simp only [Option.map_some', Option.some.injEq] at h
            rw [← h]
            have h1 : filterFe0f (p :: rest) = p :: filterFe0f rest := by
              simp [filterFe0f, hp]
            have h2 : filterFe0f (p :: ps) = p :: filterFe0f ps := by
              simp [filterFe0f, hp]
            rw [h1, h2, ih cs rest hm]
          | none => rw [hm] at h; simp at h
        · simp only [if_neg hc] at h
          exact absurd h (by simp)

theorem maybeStartsWithEmoji_exists (s : CodePointsSpecs)
    (input consumed pretty nf : List CodePoint)
    (h : maybeStartsWithEmoji s input = some (consumed, pretty, nf)) :
    ∃ p ∈ sortedEmojis s, matchEmojiPattern p input = some consumed := by
  unfold maybeStartsWithEmoji at h
  revert h
  generalize sortedEmojis s = l
  induction l with
  | nil => intro h; simp [List.findSome?] at h
  | cons a as ih =>
    intro h
    cases hm : matchEmojiPattern a input with
    | some c =>
      rw [List.findSome?_cons] at h
      simp only [hm, Option.map_some'] at h
      simp only [Option.some.injEq, Prod.mk.injEq] at h
      exact ⟨a, List.mem_cons_self a as, by rw [hm, h.1]⟩
    | none =>
      rw [List.findSome?_cons] at h
      simp only [hm, Option.map_none'] at h
      obtain ⟨p, hp, hmp⟩ := ih h
      exact ⟨p, List.mem_cons_of_mem a hp, hmp⟩

theorem mem_insertByKeyDesc (key : List CodePoint → Nat) (x : List CodePoint) :
    ∀ (l : List (List CodePoint)) (y : List CodePoint),
    y ∈ insertByKeyDesc key x l → y = x ∨ y ∈ l := by
  intro l
  induction l with
  | nil => intro y hy; simpa [insertByKeyDesc] using hy
  | cons a as ih =>
    intro y hy
    by_cases hk : key a ≤ key x
    · simp only [insertByKeyDesc, if_pos hk] at hy
      rcases List.mem_cons.mp hy with rfl | hy'
      · exact Or.inl rfl
      · exact Or.inr hy'
    · simp only [insertByKeyDesc, if_neg hk] at hy
      rcases List.mem_cons.mp hy with rfl | hy'
      · exact Or.inr (List.mem_cons_self y as)
      · rcases ih y hy' with h | h
        · exact Or.inl h
        · exact Or.inr (List.mem_cons_of_mem a h)

theorem mem_sortByKeyDesc (key : List CodePoint → Nat) :
    ∀ (l : List (List CodePoint)) (p : List CodePoint),
    p ∈ sortByKeyDesc key l → p ∈ l := by
  intro l
  induction l with
  | nil => intro p hp; simp [sortByKeyDesc] at hp
  | cons a as ih =>
    intro p hp
    have : p ∈ insertByKeyDesc key a (sortByKeyDesc key as) := hp
    rcases mem_insertByKeyDesc key a _ p this with rfl | h
    · exact List.mem_cons_self p as
    · exact List.mem_cons_of_mem a (ih p h)

theorem mem_sortedEmojis (s : CodePointsSpecs) (p : List CodePoint)
    (h : p ∈ sortedEmojis s) : p ∈ s.emojis :=
  mem_sortByKeyDesc _ s.emojis p h

theorem processOneCp_inputSize (s : CodePointsSpecs) (c : CodePoint) :
    (processOneCp s c).inputSize = 1 := by
  unfold processOneCp
  split
  · rfl
  · split
    · rfl
    · split
      · rfl
      · split
        · rfl
        · rfl

theorem sumInputSizes_cons (t : EnsNameToken) (ts : List EnsNameToken) :
    sumInputSizes (t :: ts) = t.inputSize + sumInputSizes ts := by
  simp [sumInputSizes]

theorem tokenizeLoop_sum (s : CodePointsSpecs)
    (hpat : ∀ p ∈ s.emojis, filterFe0f p ≠ []) :
    ∀ (fuel : Nat) (input : List CodePoint), input.length ≤ fuel →
    sumInputSizes (tokenizeLoop s fuel input) = input.length := by
  intro fuel
  induction fuel with
  | zero =>
    intro input hlen
    have hnil : input = [] := List.eq_nil_of_length_eq_zero (Nat.le_zero.mp hlen)
    subst hnil
    rfl
  | succ fuel ih =>
    intro input hlen
    cases input with
    | nil => rfl
    | cons c cs =>
      cases hm : maybeStartsWithEmoji s (c :: cs) with
      | none =>
        simp only [tokenizeLoop, hm]
        rw [sumInputSizes_cons, processOneCp_inputSize,
          ih cs (by simp only [List.length_cons] at hlen; omega)]
        simp [List.length_cons]
        omega
      | some trip =>
        obtain ⟨consumed, pretty, nf⟩ := trip
        simp only [tokenizeLoop, hm]
        obtain ⟨p, hpmem, hmatch⟩ :=
          maybeStartsWithEmoji_exists s (c :: cs) consumed pretty nf hm
        have hfil := matchEmojiPattern_filter p (c :: cs) consumed hmatch
        have hpe := hpat p (mem_sortedEmojis s p hpmem)
        have hcne : consumed ≠ [] := by
          intro hc
          subst hc
          simp only [filterFe0f, List.filter_nil] at hfil
          exact hpe hfil.symm
        obtain ⟨t, ht⟩ := matchEmojiPattern_consumed_append p (c :: cs) consumed hmatch
        have hdrop : List.drop consumed.length (c :: cs) = t := by
          rw [ht]
          exact List.drop_left consumed t
        rw [sumInputSizes_cons, hdrop]
        have hlc : cs.length + 1 = consumed.length + t.length := by
          have := congrArg List.length ht
          simp only [List.length_cons, List.length_append] at this
          omega
        have hcpos : 0 < consumed.length := List.length_pos.mpr hcne
        have htl : t.length ≤ fuel := by
          simp only [List.length_cons] at hlen
          omega
        rw [ih t htl]
        simp only [EnsNameToken.inputSize, List.length_cons]
        omega

theorem collapse_cons_valid (cps : List CodePoint) (rest : List EnsNameToken) :
    sumInputSizes (collapseValidTokens (.valid cps :: rest)) =
      cps.length + sumInputSizes (collapseValidTokens rest) := by
  simp only [collapseValidTokens]
  cases collapseValidTokens rest with
  | nil => simp [sumInputSizes, EnsNameToken.inputSize]
  | cons hd tl =>
    cases hd <;>
      (simp [sumInputSizes, EnsNameToken.inputSize, List.length_append]; try omega)

theorem collapseValidTokens_sum :
    ∀ ts : List EnsNameToken,
    sumInputSizes (collapseValidTokens ts) = sumInputSizes ts := by
  intro ts
  induction ts with
  | nil => rfl
  | cons t rest ih =>
    cases t with
    | valid cps =>
      rw [collapse_cons_valid, ih, sumInputSizes_cons]
      rfl
    | mapped cp cps =>
      rw [show collapseValidTokens (.mapped cp cps :: rest) =
        .mapped cp cps :: collapseValidTokens rest from rfl,
        sumInputSizes_cons, sumInputSizes_cons, ih]
    | ignored cp =>
      rw [show collapseValidTokens (.ignored cp :: rest) =
        .ignored cp :: collapseValidTokens rest from rfl,
        sumInputSizes_cons, sumInputSizes_cons, ih]
    | disallowed cp =>
      rw [show collapseValidTokens (.disallowed cp :: rest) =
        .disallowed cp :: collapseValidTokens rest from rfl,
        sumInputSizes_cons, sumInputSizes_cons, ih]
    | stop cp =>
      rw [show collapseValidTokens (.stop cp :: rest) =
        .stop cp :: collapseValidTokens rest from rfl,
        sumInputSizes_cons, sumInputSizes_cons, ih]
    | nfc inp cps =>
      rw [show collapseValidTokens (.nfc inp cps :: rest) =
        .nfc inp cps :: collapseValidTokens rest from rfl,
        sumInputSizes_cons, sumInputSizes_cons, ih]
    | emoji a b c =>
      rw [show collapseValidTokens (.emoji a b c :: rest) =
        .emoji a b c :: collapseValidTokens rest from rfl,
        sumInputSizes_cons, sumInputSizes_cons, ih]

/-- C2 (amended): tokenization preserves the code-point count whenever the
selective-NFC pass is not applied (`apply_nfc = false`); the side
condition that every emoji pattern has a non-`FE0F` code point (true of
the spec data; a pattern of only `FE0F`s would make the Rust loop
diverge) makes every emoji match consume at least one code point.  With
NFC applied the invariant fails (see the counterexample): an `Nfc`
replacement counts the expanded `Mapped` code points and drops the
interleaved `Ignored` tokens. -/
theorem claim_C2_count_preserved_without_nfc (s : CodePointsSpecs)
    (input : List CodePoint)
    (hpat : ∀ p ∈ s.emojis, filterFe0f p ≠ []) :
    sumInputSizes ((tokenizeName s input false).tokens) = input.length := by
  cases input with
  | nil => rfl
  | cons c cs =>
    show sumInputSizes
      (collapseValidTokens (tokenizeLoop s ((c :: cs).length + 1) (c :: cs))) =
      (c :: cs).length
    rw [collapseValidTokens_sum,
      tokenizeLoop_sum s hpat ((c :: cs).length + 1) (c :: cs)
        (Nat.le_succ _)]

theorem claim_C2_count_preserved_witness :
    (∀ p ∈ specsAscii.emojis, filterFe0f p ≠ []) ∧
    sumInputSizes ((tokenizeName specsAscii [97, 98] false).tokens) =
      ([97, 98] : List CodePoint).length :=
  ⟨by simp [specsAscii],
    claim_C2_count_preserved_without_nfc specsAscii [97, 98]
      (by simp [specsAscii])⟩

/-- C2, counterexample: with NFC applied, the sum of `input_size()` over
the tokens of `tokenize("a\u{FE0F}\u{0304}")` is 2 while the input has 3
code points — the `Nfc` replacement drops the interleaved `Ignored`
FE0F from the count (exactly the situation of the `with_nfc` test case
of `tokens/tokenize.rs`). -/
theorem claim_C2_tokenize_count_nfc_cex :
    sumInputSizes ((tokenize specsNfcCex [97, 65039, 772]).tokens) = 2 ∧
    ([97, 65039, 772] : List CodePoint).length = 3 ∧
    ¬ sumInputSizes ((tokenize specsNfcCex [97, 65039, 772]).tokens) =
        ([97, 65039, 772] : List CodePoint).length :=
  ⟨rfl, rfl, by decide⟩

/-- C3, counterexample: nothing in `check_whole` requires the candidate
group to differ from the determined group.  With a `whole_map` whose
`M`-set for U+0100 lists the label's own (and only) group `"X"`, the
label `[Valid [0x100]]` determines group `"X"` and then fails with
`ConfusedGroups{group1 = "X", group2 = "X"}` — `group2` equals
`group1`, and no candidate distinct from the determined group exists. -/
theorem claim_C3_self_confusable_cex :
    determineGroup specsWholeSelf
        (uniqueCps (getCpsOfNotIgnoredText [.valid [256]])) = .ok gX ∧
    validateLabel specsWholeSelf [.valid [256]] =
      some (.error (.confusedGroups "X" "X")) :=
  ⟨rfl, rfl⟩

theorem validateLabel_nil (s : CodePointsSpecs) :
    validateLabel s [] = some (.error (.disallowedSequence .emptyLabel)) := rfl

theorem validateLabelsGo_ok_all (s : CodePointsSpecs) :
    ∀ (ls : List (List EnsNameToken)) (vs : List ValidatedLabel),
    validateLabelsGo s ls = some (.ok vs) →
    ∀ l ∈ ls, ∃ v, validateLabel s l = some (.ok v) := by
  intro ls
  induction ls with
  | nil => intro vs _ l hl; exact absurd hl (List.not_mem_nil l)
  | cons a as ih =>
    intro vs h l hl
    cases hv : validateLabel s a with
    | none =>
      simp only [validateLabelsGo, hv] at h
      exact absurd h (by simp)
    | some r =>
      cases r with
      | error e =>
        simp only [validateLabelsGo, hv] at h
        exact absurd (Option.some.inj h) (by simp)
      | ok v =>
        rcases List.mem_cons.mp hl with rfl | hl'
        · exact ⟨v, hv⟩
        · simp only [validateLabelsGo, hv] at h
          cases hg : validateLabelsGo s as with
          | none => rw [hg] at h; simp at h
          | some r2 =>
            cases r2 with
            | error e => rw [hg] at h; simp at h
            | ok vs2 => exact ih vs2 hg l hl'

theorem splitTokensOnStop_ne_nil (ts : List EnsNameToken) :
    splitTokensOnStop ts ≠ [] := by
  induction ts with
  | nil => simp [splitTokensOnStop]
  | cons t rest ih =>
    cases hts : t.isStopTok with
    | true => simp [splitTokensOnStop, hts]
    | false =>
      simp only [splitTokensOnStop, hts, Bool.false_eq_true, if_false]
      cases hs : splitTokensOnStop rest with
      | nil => simp
      | cons a as => simp

theorem split_cons_not_stop (t : EnsNameToken) (rest : List EnsNameToken)
    (h : t.isStopTok = false) :
    ∃ seg segs, splitTokensOnStop rest = seg :: segs ∧
      splitTokensOnStop (t :: rest) = (t :: seg) :: segs := by
  cases hs : splitTokensOnStop rest with
  | nil => exact absurd hs (splitTokensOnStop_ne_nil rest)
  | cons seg segs =>
    refine ⟨seg, segs, rfl, ?_⟩
    simp [splitTokensOnStop, h, hs]

theorem trailingStop_cons_cons (a b : EnsNameToken) (l : List EnsNameToken) :
    trailingStop (a :: b :: l) = trailingStop (b :: l) := by
  simp [trailingStop, List.getLast?_cons_cons]

theorem emptyMemSplitAux :
    ∀ (n : Nat) (ts : List EnsNameToken), ts.length ≤ n →
    (hasAdjacentStops ts = true ∨ leadingStop ts = true ∨ trailingStop ts = true) →
    [] ∈ splitTokensOnStop ts := by
  intro n
  induction n with
  | zero =>
    intro ts hlen h
    have hnil : ts = [] := List.eq_nil_of_length_eq_zero (Nat.le_zero.mp hlen)
    subst hnil
    simp [hasAdjacentStops, leadingStop, trailingStop] at h
  | succ n ih =>
    intro ts hlen h
    cases ts with
    | nil => simp [hasAdjacentStops, leadingStop, trailingStop] at h
    | cons t rest =>
      cases hts : t.isStopTok with
      | true =>
        simp [splitTokensOnStop, hts]
      | false =>
        cases rest with
        | nil =>
          simp [hasAdjacentStops, leadingStop, trailingStop, hts] at h
        | cons r rest' =>
          cases hr : r.isStopTok with
          | true =>
            cases rest' with
            | nil => simp [splitTokensOnStop, hts, hr]
            | cons x rest'' =>
              obtain ⟨seg, segs, hsr, hsplit⟩ := split_cons_not_stop t (r :: x :: rest'') hts
              have h1 : splitTokensOnStop (r :: x :: rest'') =
                  [] :: splitTokensOnStop (x :: rest'') := by
                simp [splitTokensOnStop, hr]
              rw [h1] at hsr
              injection hsr with h2 h3
              rw [hsplit, ← h3]
              cases hx : x.isStopTok with
              | true =>
                have h4 : splitTokensOnStop (x :: rest'') =
                    [] :: splitTokensOnStop rest'' := by
                  simp [splitTokensOnStop, hx]
                rw [h4]
                exact List.mem_cons_of_mem _ (List.mem_cons_self _ _)
              | false =>
                have h' : hasAdjacentStops (x :: rest'') = true ∨
                    leadingStop (x :: rest'') = true ∨
                    trailingStop (x :: rest'') = true := by
                  rcases h with ha | hl | htr
                  · left
                    simp only [hasAdjacentStops, hts, hr, hx, Bool.false_and,
                      Bool.and_false, Bool.false_or, Bool.true_and] at ha
                    exact ha
                  · exact absurd hl (by simp [leadingStop, hts])
                  · right; right
                    rwa [trailingStop_cons_cons, trailingStop_cons_cons] at htr
                have ih' := ih (x :: rest'') (by simp at hlen ⊢; omega) h'
                exact List.mem_cons_of_mem _ ih'
          | false =>
            have h' : hasAdjacentStops (r :: rest') = true ∨
                leadingStop (r :: rest') = true ∨
                trailingStop (r :: rest') = true := by
              rcases h with ha | hl | htr
              · left
                simp only [hasAdjacentStops, hts, Bool.false_and,
                  Bool.false_or] at ha
                exact ha
              · exact absurd hl (by simp [leadingStop, hts])
              · right; right
                rwa [trailingStop_cons_cons] at htr
            have ih' := ih (r :: rest') (by simp at hlen ⊢; omega) h'
            obtain ⟨seg, segs, hsr, hsplit⟩ := split_cons_not_stop t (r :: rest') hts
            obtain ⟨seg2, segs2, hsr2, hsplit2⟩ := split_cons_not_stop r rest' hr
            rw [hsplit2] at hsr
            injection hsr with h2 h3
            rw [hsplit]
            rw [hsplit2] at ih'
            rcases List.mem_cons.mp ih' with heq | hmem
            · simp at heq
            · rw [h3] at hmem
              exact List.mem_cons_of_mem _ hmem

theorem emptyMemSplit (ts : List EnsNameToken)
    (h : hasAdjacentStops ts = true ∨ leadingStop ts = true ∨
      trailingStop ts = true) :
    [] ∈ splitTokensOnStop ts :=
  emptyMemSplitAux ts.length ts le_rfl h

theorem validateLabelsGo_prefix_empty (s : CodePointsSpecs) :
    ∀ (pre post : List (List EnsNameToken)),
    (∀ l ∈ pre, ∃ v, validateLabel s l = some (.ok v)) →
    validateLabelsGo s (pre ++ [] :: post) =
      some (.error (.disallowedSequence .emptyLabel)) := by
  intro pre
  induction pre with
  | nil =>
    intro post _
    simp only [List.nil_append]
    simp [validateLabelsGo, validateLabel_nil]
  | cons a pre' ih =>
    intro post hpre
    obtain ⟨v, hv⟩ := hpre a (List.mem_cons_self a pre')
    simp only [List.cons_append, validateLabelsGo, hv, List.append_eq]
    rw [ih post (fun l hl => hpre l (List.mem_cons_of_mem a hl))]

/-- C8 (amended): a tokenized name containing two adjacent `Stop` tokens,
or a leading or trailing `Stop` (the token-level image of two consecutive
stop characters or a leading/trailing stop), never validates: the label
splitter yields an empty label at such a position and the empty label
fails the non-empty check.  The reported error is `EmptyLabel` provided
every label before the first empty one validates — with a failing earlier
label the first failure wins instead (see the counterexample). -/
theorem claim_C8_empty_label_rejection (s : CodePointsSpecs)
    (inp : List CodePoint) (ts : List EnsNameToken)
    (hne : ts ≠ [])
    (hstop : hasAdjacentStops ts = true ∨ leadingStop ts = true ∨
      trailingStop ts = true) :
    (∀ ls, ¬ validateName s ⟨inp, ts⟩ = some (.ok ls)) ∧
    (∀ pre post, splitTokensOnStop ts = pre ++ [] :: post →
      (∀ l ∈ pre, ∃ v, validateLabel s l = some (.ok v)) →
      validateName s ⟨inp, ts⟩ =
        some (.error (.disallowedSequence .emptyLabel))) := by
  have hE : TokenizedName.isEmpty ⟨inp, ts⟩ = false := by
    cases ts with
    | nil => exact absurd rfl hne
    | cons a l => rfl
  have hval : validateName s ⟨inp, ts⟩ =
      validateLabelsGo s (splitTokensOnStop ts) := by
    unfold validateName
    rw [hE]
    rfl
  constructor
  · intro ls hok
    rw [hval] at hok
    obtain ⟨v, hv⟩ :=
      validateLabelsGo_ok_all s _ ls hok [] (emptyMemSplit ts hstop)
    rw [validateLabel_nil s] at hv
    exact absurd (Option.some.inj hv) (by simp)
  · intro pre post hsplit hpre
    rw [hval, hsplit]
    exact validateLabelsGo_prefix_empty s pre post hpre

theorem claim_C8_empty_label_rejection_witness :
    validateName specsAscii
        ⟨[97, 46, 46], [.valid [97], .stop 46, .stop 46]⟩ =
      some (.error (.disallowedSequence .emptyLabel)) := by
  refine (claim_C8_empty_label_rejection specsAscii [97, 46, 46]
    [.valid [97], .stop 46, .stop 46] (by simp) (Or.inl rfl)).2
    [[.valid [97]]] [[]] rfl ?_
  intro l hl
  simp only [List.mem_singleton] at hl
  subst hl
  exact ⟨⟨[.valid [97]], .ascii⟩, rfl⟩

/-- C8, counterexample: validation of an input with a trailing stop does
not always fail with `EmptyLabel`: labels are validated left to right and
the first failure wins, so `"a_b."` fails with `UnderscoreInMiddle` from
its first label even though its trailing stop yields an empty label. -/
theorem claim_C8_first_error_cex :
    normalize specsAscii [97, 95, 98, 46] =
      some (.error (.currableError .underscoreInMiddle 1 [95] (some []))) ∧
    ¬ normalize specsAscii [97, 95, 98, 46] =
        some (.error (.disallowedSequence .emptyLabel)) := by
  refine ⟨rfl, fun h => ?_⟩
  have h0 : normalize specsAscii [97, 95, 98, 46] =
      some (.error (.currableError .underscoreInMiddle 1 [95] (some []))) := rfl
  rw [h0] at h
  simp at h

/-- C5: the whole-script candidate scan.  Under the side condition that
every consulted `WholeObject` has an `M`-value for its key (otherwise the
scan panics before reaching a later `Number`): (i) if any unique code
point maps to a `Number` sentinel the scan short-circuits with success —
no candidates and no shared code points, so `check_whole` returns Ok and
the label cannot fail with `ConfusedGroups`; (ii) otherwise code points
absent from `whole_map` are appended to `shared` in order, and the
candidate set is the intersection of the `M[cp]` sets, initialized at the
first one. -/
theorem claim_C5_whole_map_scan (s : CodePointsSpecs) (ucps : List CodePoint)
    (hp2 : ∀ cp ∈ ucps, ∀ v m,
      s.wholeMapLookup cp = some (.wholeObject v m) → (assocLookup m cp).isSome) :
    ((∃ cp ∈ ucps, ∃ n, s.wholeMapLookup cp = some (.number n)) →
       getGroupsCandidatesAndSharedCps s ucps none [] = some ([], []) ∧
       ∀ group, checkWhole s group ucps = some (.ok ())) ∧
    ((∀ cp ∈ ucps, ∀ n, ¬ s.wholeMapLookup cp = some (.number n)) →
       getGroupsCandidatesAndSharedCps s ucps none [] =
         some (intersectNames (msetsOf s ucps), sharedSpec s ucps)) := by
  constructor
  · intro hex
    have h1 := gcs_number_short s ucps none [] hp2 hex
    refine ⟨h1, fun group => ?_⟩
    unfold checkWhole
    rw [h1]
    rfl
  · intro hnn
    have h := gcs_no_number_characterization s ucps none [] hp2 hnn
    simpa using h

theorem claim_C5_whole_map_scan_witness :
    getGroupsCandidatesAndSharedCps specsNum [256] none [] = some ([], []) ∧
    checkWhole specsNum gX [256] = some (.ok ()) := by
  have hp2 : ∀ cp ∈ ([256] : List CodePoint), ∀ v m,
      specsNum.wholeMapLookup cp = some (.wholeObject v m) →
      (assocLookup m cp).isSome := by
    intro cp hcp v m hw
    simp only [List.mem_singleton] at hcp
    subst hcp
    have h0 : specsNum.wholeMapLookup 256 = some (.number 1) := rfl
    rw [h0] at hw
    simp at hw
  have h := (claim_C5_whole_map_scan specsNum [256] hp2).1
    ⟨256, List.mem_singleton.mpr rfl, 1, rfl⟩
  exact ⟨h.1, h.2 gX⟩

theorem checkWholeLoop_error_iff (s : CodePointsSpecs) (group : ParsedGroup)
    (shared : List CodePoint) :
    ∀ maker, (∀ n ∈ maker, (s.groupByName n).isSome) →
    (((∃ e, checkWholeLoop s group shared maker = some (.error e)) ↔
       (∃ n ∈ maker, ∃ h, s.groupByName n = some h ∧ h.containsAllCps shared)) ∧
     (∀ e, checkWholeLoop s group shared maker = some (.error e) →
       ∃ n ∈ maker, ∃ h, s.groupByName n = some h ∧ h.containsAllCps shared ∧
         e = .confusedGroups (groupNameStr group.name) (groupNameStr h.name))) := by
  intro maker
  induction maker with
  | nil =>
    intro _
    refine ⟨⟨fun ⟨e, he⟩ => ?_, fun ⟨n, hn, _⟩ => absurd hn (List.not_mem_nil n)⟩,
      fun e he => ?_⟩
    · simp [checkWholeLoop] at he
    · simp [checkWholeLoop] at he
  | cons name rest ih =>
    intro hres
    obtain ⟨h0, hh0⟩ :=
      Option.isSome_iff_exists.mp (hres name (List.mem_cons_self name rest))
    have ihr := ih (fun n hn => hres n (List.mem_cons_of_mem _ hn))
    by_cases hca : h0.containsAllCps shared
    · have hloop : checkWholeLoop s group shared (name :: rest) =
          some (.error (.confusedGroups (groupNameStr group.name)
            (groupNameStr h0.name))) := by
        simp [checkWholeLoop, hh0, hca]
      constructor
      · constructor
        · intro _
          exact ⟨name, List.mem_cons_self name rest, h0, hh0, hca⟩
        · intro _
          exact ⟨_, hloop⟩
      · intro e he
        rw [hloop] at he
        have he2 := Except.error.inj (Option.some.inj he)
        exact ⟨name, List.mem_cons_self name rest, h0, hh0, hca, he2.symm⟩
    · have hred : checkWholeLoop s group shared (name :: rest) =
          checkWholeLoop s group shared rest := by
        simp [checkWholeLoop, hh0, hca]
      constructor
      · constructor
        · intro hex
          rw [hred] at hex
          obtain ⟨n, hn, h, hlk, hc⟩ := ihr.1.mp hex
          exact ⟨n, List.mem_cons_of_mem _ hn, h, hlk, hc⟩
        · rintro ⟨n, hn, h, hlk, hc⟩
          rcases List.mem_cons.mp hn with rfl | hn'
          · rw [hh0] at hlk
            cases Option.some.inj hlk
            exact absurd hc hca
          · rw [hred]
            exact ihr.1.mpr ⟨n, hn', h, hlk, hc⟩
      · intro e he
        rw [hred] at he
        obtain ⟨n, hn, h, hlk, hc, hE⟩ := ihr.2 e he
        exact ⟨n, List.mem_cons_of_mem _ hn, h, hlk, hc, hE⟩

/-- C3 (amended): `check_whole` fails exactly when some accumulated
candidate group `H` (resolved by name, possibly equal to the determined
group `G`) contains all of the shared code points, and then the error is
`ConfusedGroups{group1 = G.name, group2 = H.name}` for the first such
candidate; the code does not require `H ≠ G`, so `group2` can equal
`group1` (see the counterexample). -/
theorem claim_C3_whole_confusable_iff (s : CodePointsSpecs) (group : ParsedGroup)
    (ucps : List CodePoint) (maker : List String) (shared : List CodePoint)
    (hgcs : getGroupsCandidatesAndSharedCps s ucps none [] = some (maker, shared))
    (hres : ∀ n ∈ maker, (s.groupByName n).isSome) :
    ((∃ e, checkWhole s group ucps = some (.error e)) ↔
       (∃ n ∈ maker, ∃ h, s.groupByName n = some h ∧ h.containsAllCps shared)) ∧
    (∀ e, checkWhole s group ucps = some (.error e) →
       ∃ n ∈ maker, ∃ h, s.groupByName n = some h ∧ h.containsAllCps shared ∧
         e = .confusedGroups (groupNameStr group.name) (groupNameStr h.name)) := by
  have h := checkWholeLoop_error_iff s group shared maker hres
  unfold checkWhole
  rw [hgcs]
  exact h

theorem claim_C3_whole_confusable_iff_witness :
    ∃ e, checkWhole specsWholeSelf gX [256] = some (.error e) := by
  have h := claim_C3_whole_confusable_iff specsWholeSelf gX [256] ["X"] []
    rfl (by decide)
  exact h.1.mpr ⟨"X", by simp, gX, rfl, by decide⟩

theorem assocLookup_mem {α : Type} {l : List (CodePoint × α)} {cp : CodePoint}
    {x : α} (h : assocLookup l cp = some x) : (cp, x) ∈ l := by
  unfold assocLookup at h
  cases hf : l.find? (fun p => p.1 = cp) with
  | none => rw [hf] at h; simp at h
  | some pair =>
    rw [hf] at h
    simp only [Option.map_some', Option.some.injEq] at h
    have hmem := List.mem_of_find?_eq_some hf
    have hp := List.find?_some hf
    have h1 : pair.1 = cp := by simpa using hp
    have : (cp, x) = pair := by
      cases pair
      simp only [Prod.mk.injEq]
      exact ⟨h1.symm, h.symm⟩
    rw [this]
    exact hmem

theorem gcs_isSome (s : CodePointsSpecs) (hp2 : wholeMapSelfKeyed s) :
    ∀ (ucps : List CodePoint) (mg : Option (List String)) (sh : List CodePoint),
    (getGroupsCandidatesAndSharedCps s ucps mg sh).isSome := by
  intro ucps
  induction ucps with
  | nil => intro mg sh; simp [getGroupsCandidatesAndSharedCps]
  | cons cp rest ih =>
    intro mg sh
    cases hwm : s.wholeMapLookup cp with
    | none => simp only [getGroupsCandidatesAndSharedCps, hwm]; exact ih _ _
    | some v =>
      cases v with
      | number n => simp [getGroupsCandidatesAndSharedCps, hwm]
      | wholeObject vv m =>
        have hmem : (cp, ParsedWholeValue.wholeObject vv m) ∈ s.wholeMap :=
          assocLookup_mem hwm
        have hks := hp2 _ hmem vv m rfl
        obtain ⟨names, hnames⟩ := Option.isSome_iff_exists.mp hks
        simp only [getGroupsCandidatesAndSharedCps, hwm, hnames]
        exact ih _ _

theorem gcs_names (s : CodePointsSpecs) :
    ∀ (ucps : List CodePoint) (mg : Option (List String)) (sh : List CodePoint)
      (maker : List String) (shared : List CodePoint),
    getGroupsCandidatesAndSharedCps s ucps mg sh = some (maker, shared) →
    (∀ gs, mg = some gs → ∀ n ∈ gs, nameInWholeMap s n) →
    ∀ n ∈ maker, nameInWholeMap s n := by
  intro ucps
  induction ucps with
  | nil =>
    intro mg sh maker shared hres hmg n hn
    simp only [getGroupsCandidatesAndSharedCps, Option.some.injEq,
      Prod.mk.injEq] at hres
    cases mg with
    | none => rw [← hres.1] at hn; exact absurd hn (List.not_mem_nil n)
    | some gs => exact hmg gs rfl n (by rwa [← hres.1] at hn)
  | cons cp rest ih =>
    intro mg sh maker shared hres hmg n hn
    cases hwm : s.wholeMapLookup cp with
    | none =>
      rw [getGroupsCandidatesAndSharedCps] at hres
      rw [hwm] at hres
      exact ih _ _ _ _ hres hmg n hn
    | some v =>
      cases v with
      | number nn =>
        rw [getGroupsCandidatesAndSharedCps] at hres
        rw [hwm] at hres
        simp only [Option.some.injEq, Prod.mk.injEq] at hres
        rw [← hres.1] at hn
        exact absurd hn (List.not_mem_nil n)
      | wholeObject vv m =>
        rw [getGroupsCandidatesAndSharedCps] at hres
        rw [hwm] at hres
        cases hlk : assocLookup m cp with
        | none => simp only [hlk] at hres; exact absurd hres (by simp)
        | some names =>
          simp only [hlk] at hres
          have hnamesQ : ∀ n' ∈ names, nameInWholeMap s n' := by
            intro n' hn'
            exact ⟨(cp, .wholeObject vv m), assocLookup_mem hwm,
              (cp, names), assocLookup_mem hlk, hn'⟩
          cases mg with
          | none =>
            refine ih _ _ _ _ hres ?_ n hn
            intro gs hgs n' hn'
            cases Option.some.inj hgs
            exact hnamesQ n' hn'
          | some gs =>
            refine ih _ _ _ _ hres ?_ n hn
            intro gs' hgs' n' hn'
            cases Option.some.inj hgs'
            have := List.mem_filter.mp hn'
            exact hmg gs rfl n' this.1

theorem checkWholeLoop_isSome (s : CodePointsSpecs) (group : ParsedGroup)
    (shared : List CodePoint) :
    ∀ maker, (∀ n ∈ maker, (s.groupByName n).isSome) →
    (checkWholeLoop s group shared maker).isSome := by
  intro maker
  induction maker with
  | nil => intro _; simp [checkWholeLoop]
  | cons name rest ih =>
    intro hres
    obtain ⟨h0, hh0⟩ :=
      Option.isSome_iff_exists.mp (hres name (List.mem_cons_self name rest))
    by_cases hca : h0.containsAllCps shared
    · simp [checkWholeLoop, hh0, hca]
    · have := ih (fun n hn => hres n (List.mem_cons_of_mem _ hn))
      simpa [checkWholeLoop, hh0, hca] using this

theorem checkWhole_isSome (s : CodePointsSpecs)
    (hp1 : wholeMapNamesResolvable s) (hp2 : wholeMapSelfKeyed s)
    (group : ParsedGroup) (ucps : List CodePoint) :
    (checkWhole s group ucps).isSome := by
  unfold checkWhole
  cases hg : getGroupsCandidatesAndSharedCps s ucps none [] with
  | none =>
    have := gcs_isSome s hp2 ucps none []
    rw [hg] at this
    simp at this
  | some pair =>
    obtain ⟨maker, shared⟩ := pair
    apply checkWholeLoop_isSome
    intro n hn
    have hq := gcs_names s ucps none [] maker shared hg
      (fun gs hgs => by cases hgs) n hn
    obtain ⟨p, hp, e, he, hne⟩ := hq
    exact hp1 p hp e he n hne

theorem checkAndGetGroup_isSome (s : CodePointsSpecs)
    (hp1 : wholeMapNamesResolvable s) (hp2 : wholeMapSelfKeyed s)
    (label : List EnsNameToken) : (checkAndGetGroup s label).isSome := by
  cases hdet : determineGroup s (uniqueCps (getCpsOfNotIgnoredText label)) with
  | error e => simp [checkAndGetGroup, hdet]
  | ok group =>
    cases hchk : checkGroup s group (getCpsOfNotIgnoredText label) with
    | error e => simp [checkAndGetGroup, hdet, hchk]
    | ok u =>
      cases u
      have hs := checkWhole_isSome s hp1 hp2 group
        (uniqueCps (getCpsOfNotIgnoredText label))
      obtain ⟨r, hr⟩ := Option.isSome_iff_exists.mp hs
      cases r with
      | error e => simp [checkAndGetGroup, hdet, hchk, hr]
      | ok u => cases u; simp [checkAndGetGroup, hdet, hchk, hr]

/-- C10 (amended): every candidate name accumulated from `whole_map`
`M`-sets is looked up with `group_by_name` and the `expect` assumes
success; when every name occurring in an `M`-set resolves to a group of
the group list, that panic branch is unreachable — and `validate_label`
is total provided additionally every `WholeObject` entry of `whole_map`
has an `M`-value for its own key (without the extra condition the other
`expect`, in `get_groups_candidates_and_shared_cps`, can still panic:
see the counterexample). -/
theorem claim_C10_total_with_selfkeys (s : CodePointsSpecs)
    (label : List EnsNameToken)
    (hp1 : wholeMapNamesResolvable s) (hp2 : wholeMapSelfKeyed s) :
    (validateLabel s label).isSome := by
  unfold validateLabel
  cases nonEmpty label with
  | error e => simp
  | ok u =>
    cases u
    cases checkTokenTypes label with
    | error e => simp
    | ok u =>
      cases u
      by_cases hfe : isFullyEmoji label
      · simp [hfe]
      · simp only [hfe]
        cases underscoreOnlyAtBeginning label with
        | error e => simp
        | ok u =>
          cases u
          by_cases hfa : isFullyAscii label
          · simp only [hfa]
            cases noHyphenAtSecondAndThird label with
            | error e => simp
            | ok u => cases u; simp
          · simp only [hfa]
            cases checkFenced s label with
            | error e => simp
            | ok u =>
              cases u
              cases checkCmLeadingEmoji s label with
              | error e => simp
              | ok u =>
                cases u
                have hs := checkAndGetGroup_isSome s hp1 hp2 label
                obtain ⟨r, hr⟩ := Option.isSome_iff_exists.mp hs
                rw [hr]
                cases r with
                | error e => simp
                | ok group => simp

theorem claim_C10_total_with_selfkeys_witness :
    wholeMapNamesResolvable specsWholeSelf ∧ wholeMapSelfKeyed specsWholeSelf ∧
    (validateLabel specsWholeSelf [.valid [256]]).isSome := by
  have hp1 : wholeMapNamesResolvable specsWholeSelf := by
    intro p hp e he n hn
    simp only [specsWholeSelf, List.mem_singleton] at hp
    subst hp
    simp only [mEntriesOf, List.mem_singleton] at he
    subst he
    simp only [List.mem_singleton] at hn
    subst hn
    rfl
  have hp2 : wholeMapSelfKeyed specsWholeSelf := by
    intro p hp v m he
    simp only [specsWholeSelf, List.mem_singleton] at hp
    subst hp
    simp only at he
    cases he
    rfl
  exact ⟨hp1, hp2,
    claim_C10_total_with_selfkeys specsWholeSelf [.valid [256]] hp1 hp2⟩

/-- C10, counterexample: the precondition that every group name in a
`whole_map` `M`-set resolves does not make `validate_label` total: with a
`WholeObject` whose `M` lacks its own key (the precondition holds
vacuously), the `expect` in `get_groups_candidates_and_shared_cps`
panics on the label `[Valid [0x100]]`. -/
theorem claim_C10_panic_cex :
    wholeMapNamesResolvable specsWholePanic ∧
    validateLabel specsWholePanic [.valid [256]] = none := by
  refine ⟨?_, rfl⟩
  intro p hp e he n hn
  simp only [specsWholePanic, List.mem_singleton] at hp
  subst hp
  simp [mEntriesOf] at he

end EnsNorm
